/-
  Verification of the clipgenius-studio automated media timeline compiler.

  Shallow embedding of:
  * src/app/api/upload/route.ts : rotation normalization/bucketing
    (getVideoStreamInfo, lines 202-207), auto-timeline synthesis
    (buildClipsFromCuts, lines 300-395), and interval algebra
    (mergeIntervals / invertIntervals / overlapSeconds, lines 442-481);
  * the timeline model (splitProjectClipAt, trimProjectTimelineToTargetSeconds,
    projectDurationSeconds, projectClipOffsets) from src/unnamed/part_007;
  * the export route (clip validation and audio-plan selection,
    buildLinkedAudioPlan / buildUnlinkedAudioPlan) from src/unnamed/part_002.

  Numbers are modelled as exact rationals (ℚ).  JavaScript Math.max / Math.min
  become max / min; JS `%` (a truncating remainder) is modelled by jsMod below.
  crypto.randomUUID() is modelled by explicitly passed identifier arguments
  (no verified property depends on identifier values).  The TS field `end`
  is renamed `stop` because `end` is a Lean keyword.
-/
import Mathlib

set_option maxHeartbeats 1000000

namespace ClipGenius

/-- JS helper `clamp(n, a, b) = Math.max(a, Math.min(b, n))`
(identical in both route files and in part_007). -/
def clampQ (n a b : ℚ) : ℚ := max a (min b n)

/-! ### Interval algebra (upload route, lines 397, 442-481) -/

/-- `type Interval = { start: number; end: number }` (`end` renamed `stop`). -/
structure Interval where
  start : ℚ
  stop : ℚ
deriving DecidableEq

/-- the loop body of `mergeIntervals`; `out` is the accumulated output, kept
in order.  `prev.end = Math.max(prev.end, e)` mutates the last element of
`out`, modelled by `dropLast`/append. -/
def mergeGo (pad : ℚ) : List Interval → List Interval → List Interval
  | [], out => out
  | it :: rest, out =>
    let s := it.start - pad
    let e := it.stop + pad
    match out.getLast? with
    | none => mergeGo pad rest [⟨s, e⟩]
    | some prev =>
        if s ≤ prev.stop then mergeGo pad rest (out.dropLast ++ [⟨prev.start, max prev.stop e⟩])
        else mergeGo pad rest (out ++ [⟨s, e⟩])

/-- `mergeIntervals(list, pad)` (upload route, lines 442-456): pad every
interval by ±pad, then left-to-right sweep merging any interval whose padded
start is ≤ the current merged interval's end. -/
def mergeIntervals (list : List Interval) (pad : ℚ) : List Interval :=
  mergeGo pad list []

/-- proof-friendly reformulation of the merge sweep: the first argument is
the interval currently last in `out`.  Proved equal to `mergeGo` below. -/
def mergeRec (pad : ℚ) : Interval → List Interval → List Interval
  | cur, [] => [cur]
  | cur, it :: rest =>
    let s := it.start - pad
    let e := it.stop + pad
    if s ≤ cur.stop then mergeRec pad ⟨cur.start, max cur.stop e⟩ rest
    else cur :: mergeRec pad ⟨s, e⟩ rest

/-- the sweep inside `invertIntervals` (upload route, lines 458-471), with the
running cursor `cur` made explicit; emits the gap before each silence and the
final trailing gap. -/
def invertGo (a b : ℚ) : ℚ → List Interval → List Interval
  | cur, [] => if cur < b then [⟨cur, b⟩] else []
  | cur, s :: rest =>
      let ss := clampQ s.start a b
      let ee := clampQ s.stop a b
      (if cur < ss then [⟨cur, ss⟩] else []) ++ invertGo a b (max cur ee) rest

/-- `invertIntervals(domain, silences)` (upload route, lines 458-471). -/
def invertIntervals (domain : Interval) (silences : List Interval) : List Interval :=
  (invertGo domain.start domain.stop domain.start silences).filter
    (fun x => x.start < x.stop)

/-- `overlapSeconds(interval, list)` (upload route, lines 473-481). -/
def overlapSeconds (interval : Interval) (list : List Interval) : ℚ :=
  list.foldl
    (fun sum it =>
      let s := max interval.start it.start
      let e := min interval.stop it.stop
      if s < e then sum + (e - s) else sum)
    0

/-! ### Rotation normalization (upload route, getVideoStreamInfo lines 202-207) -/

/-- truncation toward zero, the rounding used by the JS `%` operator. -/
def ratTrunc (q : ℚ) : ℤ := if 0 ≤ q then ⌊q⌋ else ⌈q⌉

/-- the JS remainder operator `a % b` on numbers (sign follows the dividend). -/
def jsMod (a b : ℚ) : ℚ := a - b * (ratTrunc (a / b) : ℚ)

/-- `rot = ((rot % 360) + 360) % 360` (upload route, line 203). -/
def normalizeRotationDegrees (v : ℚ) : ℚ := jsMod (jsMod v 360 + 360) 360

/-- the bucketing chain of lines 204-207:
`if (rot > 315 || rot < 45) rot = 0; else if (45 ≤ rot < 135) 90;
else if (135 ≤ rot < 225) 180; else 270`, applied after normalization. -/
def bucketRotationDegrees (v : ℚ) : ℚ :=
  let rot := normalizeRotationDegrees v
  if 315 < rot ∨ rot < 45 then 0
  else if 45 ≤ rot ∧ rot < 135 then 90
  else if 135 ≤ rot ∧ rot < 225 then 180
  else 270

/-! ### Auto-timeline synthesis (upload route, buildClipsFromCuts lines 300-395) -/

/-- `AnalysisClipKind = "source" | "highlight" | "broll"` (src/lib/types.ts). -/
inductive ClipKind where
  | source
  | highlight
  | broll
deriving DecidableEq

/-- `AnalysisClip` (src/lib/types.ts); `end` renamed `stop`. -/
structure AnalysisClip where
  id : String
  label : String
  kind : ClipKind
  start : ℚ
  stop : ℚ
deriving DecidableEq

/-- a clip's duration `c.end - c.start`. -/
def clipLen (c : AnalysisClip) : ℚ := c.stop - c.start

/-- insertion step for the ascending numeric sort `times.sort((a,b) => a-b)`. -/
def insertSorted (x : ℚ) : List ℚ → List ℚ
  | [] => [x]
  | y :: ys => if x ≤ y then x :: y :: ys else y :: insertSorted x ys

/-- ascending numeric sort (line 306). -/
def sortTimes (l : List ℚ) : List ℚ := l.foldr insertSorted []

/-- the raw-clip loop of lines 308-323: each adjacent boundary pair becomes a
clip labelled `Scene i+1` of kind highlight; pairs shorter than 0.25 are
skipped (the index still advances).  `idGen` models `crypto.randomUUID()`. -/
def rawClips (idGen : ℕ → String) : ℕ → List ℚ → List AnalysisClip
  | _, [] => []
  | _, [_] => []
  | i, a :: b :: rest =>
    if b - a < 1/4 then rawClips idGen (i + 1) (b :: rest)
    else
      { id := idGen i, label := "Scene " ++ toString (i + 1), kind := .highlight,
        start := a, stop := b } :: rawClips idGen (i + 1) (b :: rest)

/-- `merged[merged.length - 1] = { ...prev, end: c.end }` (line 337): replace
the last accumulated clip's end. -/
def setLastStop (e : ℚ) : List AnalysisClip → List AnalysisClip
  | [] => []
  | [c] => [{ c with stop := e }]
  | c :: cs => c :: setLastStop e cs

/-- the merge loop of lines 326-339 with the accumulator `merged` explicit:
a clip shorter than `minLen` (unless the accumulator is empty) is absorbed
into the previous accumulated clip by extending that clip's end. -/
def mergeSmallGo (minLen : ℚ) (acc : List AnalysisClip) : List AnalysisClip → List AnalysisClip
  | [] => acc
  | c :: cs =>
    if minLen ≤ clipLen c ∨ acc = [] then mergeSmallGo minLen (acc ++ [c]) cs
    else mergeSmallGo minLen (setLastStop c.stop acc) cs

/-- the whole merge pass (lines 326-339). -/
def mergeSmall (minLen : ℚ) (clips : List AnalysisClip) : List AnalysisClip :=
  mergeSmallGo minLen [] clips

/-- proof-friendly reformulation of the merge loop: the head of the first
argument is the clip currently last in the accumulator.  `mergeSmallGo`
is proved equal to it below (mergeSmallGo_eq_rec). -/
def mergeSmallRec (minLen : ℚ) : AnalysisClip → List AnalysisClip → List AnalysisClip
  | h, [] => [h]
  | h, c :: cs =>
    if minLen ≤ clipLen c then h :: mergeSmallRec minLen c cs
    else mergeSmallRec minLen { h with stop := c.stop } cs

/-- the scan of lines 343-351: index of the first clip of globally minimal
length (`len < smallestLen` keeps the first minimum). -/
def minIdxGo : List AnalysisClip → ℕ → ℚ → ℕ → ℕ
  | [], _, _, best => best
  | c :: cs, i, bestLen, best =>
    if clipLen c < bestLen then minIdxGo cs (i + 1) (clipLen c) i
    else minIdxGo cs (i + 1) bestLen best

/-- `smallestIdx` of the cap loop (lines 342-362); 0 for the empty list
(the loop is never entered in that case). -/
def smallestIdx : List AnalysisClip → ℕ
  | [] => 0
  | c :: cs => minIdxGo cs 1 (clipLen c) 0

/-- `clips.splice(0, 2, { ...b, start: a.start })` (lines 352-356): merge the
first clip forward into its successor. -/
def mergeForward : List AnalysisClip → List AnalysisClip
  | a :: b :: rest => { b with start := a.start } :: rest
  | l => l

/-- `clips.splice(i, 2, { ...a, end: b.end })` at position `i` (lines 357-361):
merge the clip at `i+1` backward into the clip at `i`. -/
def mergeBackAt : List AnalysisClip → ℕ → List AnalysisClip
  | a :: b :: rest, 0 => { a with stop := b.stop } :: rest
  | a :: rest, n + 1 => a :: mergeBackAt rest n
  | l, _ => l

/-- one iteration of the `while (clips.length > maxClips)` loop
(lines 342-362). -/
def capStep (l : List AnalysisClip) : List AnalysisClip :=
  let i := smallestIdx l
  if i = 0 then mergeForward l else mergeBackAt l (i - 1)

/-- the cap loop with explicit fuel.  Each iteration removes exactly one clip,
so fuel `l.length` (used by `capClips`) is always sufficient; the guard
`l.length < 2` stops where the JS loop would index past the array (it does
not terminate in JS when `maxClips = 0` and one clip remains, a state the
verified theorems exclude via `1 ≤ maxClips`). -/
def capClipsGo (maxClips : ℕ) : ℕ → List AnalysisClip → List AnalysisClip
  | 0, l => l
  | fuel + 1, l =>
    if l.length ≤ maxClips ∨ l.length < 2 then l
    else capClipsGo maxClips fuel (capStep l)

/-- the whole cap pass (lines 342-362). -/
def capClips (maxClips : ℕ) (l : List AnalysisClip) : List AnalysisClip :=
  capClipsGo maxClips l.length l

/-- `clips[clips.length-1] = { ...last, label: "Outro", kind: "source" }`. -/
def setLastOutro : List AnalysisClip → List AnalysisClip
  | [] => []
  | [c] => [{ c with label := "Outro", kind := .source }]
  | c :: cs => c :: setLastOutro cs

/-- the relabel pass of lines 365-368: when at least two clips remain the
first becomes "Intro"/source and the last "Outro"/source. -/
def relabelEnds : List AnalysisClip → List AnalysisClip
  | c0 :: c1 :: cs =>
    { c0 with label := "Intro", kind := .source } :: setLastOutro (c1 :: cs)
  | l => l

/-- the 5-segment fallback template of lines 372-392, with the
`parts.map((p, i) => ...)` unrolled (seg = duration/5; the last segment's end
is written as `durationSeconds` itself, as in line 383). -/
def fallbackClips (idGen : ℕ → String) (durationSeconds : ℚ) : List AnalysisClip :=
  let seg := durationSeconds / 5
  [ { id := idGen 0, label := "Intro", kind := .source, start := 0 * seg, stop := 1 * seg },
    { id := idGen 1, label := "Action Peak", kind := .highlight, start := 1 * seg, stop := 2 * seg },
    { id := idGen 2, label := "Highlight", kind := .highlight, start := 2 * seg, stop := 3 * seg },
    { id := idGen 3, label := "Climax", kind := .highlight, start := 3 * seg, stop := 4 * seg },
    { id := idGen 4, label := "Outro", kind := .source, start := 4 * seg, stop := durationSeconds } ]

/-- `buildClipsFromCuts(durationSeconds, cuts, { minClipSeconds, maxClips })`
(upload route, lines 300-395). -/
def buildClipsFromCuts (idGen : ℕ → String) (durationSeconds : ℚ) (cuts : List ℚ)
    (minClipSeconds : ℚ) (maxClips : ℕ) : List AnalysisClip :=
  let times := sortTimes
    (0 :: cuts.filter (fun t => 3/10 < t ∧ t < durationSeconds - 3/10) ++ [durationSeconds])
  let raw := rawClips idGen 0 times
  let minLen := max (1/2) minClipSeconds
  let merged := mergeSmall minLen raw
  let capped := capClips maxClips merged
  let labeled := relabelEnds capped
  if labeled.length ≤ 1 ∧ 6 < durationSeconds then fallbackClips idGen durationSeconds
  else labeled

/-! ### Project timeline model (src/unnamed/part_007) -/

/-- `ProjectClip` (src/lib/types.ts); the optional audio controls are
modelled with `Option`. -/
structure ProjectClip where
  id : String
  assetId : String
  label : String
  sourceIn : ℚ
  sourceOut : ℚ
  audioVolume : Option ℚ := none
  audioMuted : Option Bool := none
  audioFadeIn : Option ℚ := none
  audioFadeOut : Option ℚ := none
deriving DecidableEq

/-- `AudioClip` (src/lib/types.ts), used when audio is unlinked. -/
structure AudioClip where
  id : String
  assetId : String
  label : String
  sourceIn : ℚ
  sourceOut : ℚ
  start : ℚ
  volume : Option ℚ := none
  muted : Option Bool := none
  fadeIn : Option ℚ := none
  fadeOut : Option ℚ := none
deriving DecidableEq

/-- `ProjectTimeline` (src/lib/types.ts). -/
structure ProjectTimeline where
  projectId : String
  clips : List ProjectClip
  audioLinked : Option Bool := none
  audioClips : Option (List AudioClip) := none
  trackAudioMuted : Option Bool := none
  trackAudioVolume : Option ℚ := none
deriving DecidableEq

/-- a project clip's source length `sourceOut - sourceIn`. -/
def projectClipLen (c : ProjectClip) : ℚ := c.sourceOut - c.sourceIn

/-- `splitProjectClipAt(timeline, clipId, sourceSeconds)` (part_007, lines
3-24).  `idL`/`idR` model the two `crypto.randomUUID()` calls; `none` models
the `null` returns.  `findIndex` is modelled by `findIdx` (which returns the
length when nothing matches, making the lookup fail like `idx === -1`). -/
def splitProjectClipAt (idL idR : String) (timeline : ProjectTimeline)
    (clipId : String) (sourceSeconds : ℚ) : Option (ProjectTimeline × String) :=
  let idx := timeline.clips.findIdx (fun c => c.id == clipId)
  match timeline.clips[idx]? with
  | none => none
  | some clip =>
    let t := clampQ sourceSeconds (clip.sourceIn + 1/5) (clip.sourceOut - 1/5)
    if clip.sourceIn < t ∧ t < clip.sourceOut then
      let left : ProjectClip := { clip with id := idL, sourceOut := t }
      let right : ProjectClip := { clip with id := idR, sourceIn := t }
      some ({ timeline with
                clips := timeline.clips.take idx ++ [left, right]
                  ++ timeline.clips.drop (idx + 1) },
            right.id)
    else none

/-- the walk of lines 30-43: keep whole clips while they fit in `remaining`,
truncate the first clip that does not, drop the rest. -/
def trimGo (remaining : ℚ) : List ProjectClip → List ProjectClip
  | [] => []
  | c :: cs =>
    if remaining ≤ 0 then []
    else if c.sourceOut - c.sourceIn ≤ remaining then
      c :: trimGo (remaining - (c.sourceOut - c.sourceIn)) cs
    else [{ c with sourceOut := c.sourceIn + remaining }]

/-- `trimProjectTimelineToTargetSeconds(timeline, targetSeconds)` (part_007,
lines 26-46). -/
def trimProjectTimelineToTargetSeconds (timeline : ProjectTimeline)
    (targetSeconds : ℚ) : ProjectTimeline :=
  let target := max 5 targetSeconds
  if timeline.clips = [] then timeline
  else { timeline with clips := trimGo target timeline.clips }

/-- `projectDurationSeconds(timeline)` (part_007, lines 48-50):
`reduce((sum, c) => sum + Math.max(0, c.sourceOut - c.sourceIn), 0)`. -/
def projectDurationSeconds (timeline : ProjectTimeline) : ℚ :=
  timeline.clips.foldl (fun sum c => sum + max 0 (c.sourceOut - c.sourceIn)) 0

/-- the loop of `projectClipOffsets` (part_007, lines 52-60) with the running
time `t` explicit. -/
def projectClipOffsetsGo (t : ℚ) : List ProjectClip → List (String × ℚ)
  | [] => []
  | c :: cs => (c.id, t) :: projectClipOffsetsGo (t + max 0 (c.sourceOut - c.sourceIn)) cs

/-- `projectClipOffsets(timeline)` (part_007, lines 52-60).  The JS `Map` is
modelled as the association list in insertion order; the two agree whenever
clip ids are distinct (`Map.set` would overwrite duplicates). -/
def projectClipOffsets (timeline : ProjectTimeline) : List (String × ℚ) :=
  projectClipOffsetsGo 0 timeline.clips

/-- Modelled from the spec: "a clip's project-time position ... is the prefix
sum of the lengths of all preceding clips".  Used to compare
`projectClipOffsets` with the spec's words. -/
def specOffsets (lens : List ℚ) : List ℚ :=
  (List.range lens.length).map (fun i => (lens.take i).sum)

/-! ### Export route (src/unnamed/part_002): clip validation -/

/-- the per-clip render data `{ src, inpoint, outpoint }` (part_002 lines
46-58). -/
structure RenderClip where
  src : String
  inpoint : ℚ
  outpoint : ℚ
deriving DecidableEq

/-- lines 46-58: resolve each clip's asset through the asset map (clips whose
asset is missing map to `null` and are filtered away), then keep only clips
with `outpoint > inpoint + 0.05`.  `resolve` models `assetMap.get` composed
with the `/uploads/...` path join (the path prefix is irrelevant here). -/
def buildRenderClips (resolve : String → Option String) (clips : List ProjectClip) :
    List RenderClip :=
  (clips.filterMap (fun c =>
      (resolve c.assetId).map (fun url =>
        ({ src := url, inpoint := c.sourceIn, outpoint := c.sourceOut } : RenderClip)))).filter
    (fun c => c.inpoint + 1/20 < c.outpoint)

/-- lines 60-62: the only clip-level rejection — the filtered list being
empty. -/
def validateExportClips (resolve : String → Option String) (clips : List ProjectClip) :
    Except String (List RenderClip) :=
  let cs := buildRenderClips resolve clips
  if cs = [] then .error "Timeline has no usable clips" else .ok cs

/-! ### Export route (src/unnamed/part_002): audio-plan selection -/

/-- one entry of the `normalized` array of buildUnlinkedAudioPlan
(part_002 lines 188-241). -/
structure AudioSegment where
  inputIndex : ℕ
  sourceIn : ℚ
  sourceOut : ℚ
  start : ℚ
  volume : ℚ
  fadeIn : ℚ
  fadeOut : ℚ
deriving DecidableEq

/-- `trackVol` (line 91): the track volume made finite/defaulted then clamped
to [0, 2]. -/
def trackVolOf (tl : ProjectTimeline) : ℚ :=
  clampQ (tl.trackAudioVolume.getD 1) 0 2

/-- `exportMuted` (line 92). -/
def exportMuted (tl : ProjectTimeline) : Bool :=
  tl.trackAudioMuted.getD false || decide (trackVolOf tl ≤ 1/10000)

/-- `unlinkedAudio` (line 90): audio explicitly unlinked and audioClips
present. -/
def unlinkedAudio (tl : ProjectTimeline) : Bool :=
  (tl.audioLinked == some false) && tl.audioClips.isSome

/-- `linkedNeedsMix` (lines 94-99).  Note that per-clip fades are not
consulted here. -/
def linkedNeedsMix (tl : ProjectTimeline) : Bool :=
  !unlinkedAudio tl && !exportMuted tl &&
    (decide (1/1000 < |trackVolOf tl - 1|) ||
      tl.clips.any (fun c =>
        c.audioMuted.getD false || decide (1/1000 < |c.audioVolume.getD 1 - 1|)))

/-- the loop of buildUnlinkedAudioPlan (lines 198-242): each `continue`
becomes a recursive call that skips the clip.  `resolve` models
`assetMap.get`, `hasAudio` models the external `probeHasAudio`; `inputs` and
`segs` accumulate `inputs`/`normalized`. -/
def buildUnlinkedGo (resolve : String → Option String) (hasAudio : String → Bool)
    (projectDuration trackVol : ℚ) :
    List AudioClip → List String → List AudioSegment → List String × List AudioSegment
  | [], inputs, segs => (inputs, segs)
  | c :: cs, inputs, segs =>
    if c.assetId = "" then buildUnlinkedGo resolve hasAudio projectDuration trackVol cs inputs segs
    else if c.muted.getD false then
      buildUnlinkedGo resolve hasAudio projectDuration trackVol cs inputs segs
    else
      match resolve c.assetId with
      | none => buildUnlinkedGo resolve hasAudio projectDuration trackVol cs inputs segs
      | some src =>
        if c.sourceOut ≤ c.sourceIn + 1/20 then
          buildUnlinkedGo resolve hasAudio projectDuration trackVol cs inputs segs
        else
          let volume := clampQ (c.volume.getD 1) 0 2 * trackVol
          if volume ≤ 0 then
            buildUnlinkedGo resolve hasAudio projectDuration trackVol cs inputs segs
          else
            let len := max (1/20) (c.sourceOut - c.sourceIn)
            let fIn := clampQ (c.fadeIn.getD 0) 0 (len / 2)
            let fOut := clampQ (c.fadeOut.getD 0) 0 (len / 2)
            if !hasAudio src then
              buildUnlinkedGo resolve hasAudio projectDuration trackVol cs inputs segs
            else
              let pair :=
                match inputs.findIdx? (· == src) with
                | some i => (i, inputs)
                | none => (inputs.length, inputs ++ [src])
              let boundedStart := clampQ c.start 0 (max 0 (projectDuration - len))
              buildUnlinkedGo resolve hasAudio projectDuration trackVol cs pair.2
                (segs ++ [{ inputIndex := pair.1, sourceIn := max 0 c.sourceIn,
                            sourceOut := max 0 c.sourceOut, start := boundedStart,
                            volume := volume, fadeIn := fIn, fadeOut := fOut }])

/-- `buildUnlinkedAudioPlan` (part_002 lines 182-300): `null` when no segment
survives.  The ffmpeg filter-graph string assembly (lines 246-299) is not
modelled; the plan is its data content (unique input paths and normalized
segments), which is what the plan-existence claims are about. -/
def buildUnlinkedAudioPlan (resolve : String → Option String) (hasAudio : String → Bool)
    (audioClips : List AudioClip) (projectDuration trackVol : ℚ) :
    Option (List String × List AudioSegment) :=
  let r := buildUnlinkedGo resolve hasAudio projectDuration trackVol audioClips [] []
  if r.2 = [] then none else some r

/-- the derived audio lane of buildLinkedAudioPlan (part_002 lines 156-178),
with the running offset `acc` explicit. -/
def deriveLinkedLane (projectDuration trackVol : ℚ) :
    List ProjectClip → ℚ → List AudioClip
  | [], _ => []
  | c :: cs, acc =>
    if c.sourceOut ≤ c.sourceIn + 1/20 then deriveLinkedLane projectDuration trackVol cs acc
    else
      let len := max (1/20) (c.sourceOut - c.sourceIn)
      let start := clampQ acc 0 (max 0 (projectDuration - len))
      { id := "linked-" ++ c.id, assetId := c.assetId, label := c.label,
        sourceIn := c.sourceIn, sourceOut := c.sourceOut, start := start,
        volume := some (clampQ (c.audioVolume.getD 1) 0 2 * trackVol),
        muted := some (c.audioMuted.getD false),
        fadeIn := some (clampQ (c.audioFadeIn.getD 0) 0 (len / 2)),
        fadeOut := some (clampQ (c.audioFadeOut.getD 0) 0 (len / 2)) }
        :: deriveLinkedLane projectDuration trackVol cs (acc + len)

/-- `buildLinkedAudioPlan` (part_002 lines 154-180). -/
def buildLinkedAudioPlan (resolve : String → Option String) (hasAudio : String → Bool)
    (videoClips : List ProjectClip) (projectDuration trackVol : ℚ) :
    Option (List String × List AudioSegment) :=
  buildUnlinkedAudioPlan resolve hasAudio
    (deriveLinkedLane projectDuration trackVol videoClips 0) projectDuration 1

/-- the `audioPlan` selection of part_002 lines 101-106 (with
`projectDuration = Math.max(0.001, projectDurationSeconds(timeline))`,
line 88). -/
def audioPlan (resolve : String → Option String) (hasAudio : String → Bool)
    (tl : ProjectTimeline) : Option (List String × List AudioSegment) :=
  let projectDuration := max (1/1000) (projectDurationSeconds tl)
  if !exportMuted tl && unlinkedAudio tl then
    buildUnlinkedAudioPlan resolve hasAudio (tl.audioClips.getD []) projectDuration (trackVolOf tl)
  else if !exportMuted tl && linkedNeedsMix tl then
    buildLinkedAudioPlan resolve hasAudio tl.clips projectDuration (trackVolOf tl)
  else none

/-! ### Decidable helper predicates (used to state theorems and witnesses) -/

/-- every clip of the list has source length at least `q`. -/
def allLenAtLeastB (q : ℚ) (l : List ProjectClip) : Bool :=
  l.all (fun c => decide (q ≤ projectClipLen c))

/-- every clip of the list has positive source length. -/
def allPosLenB (l : List ProjectClip) : Bool :=
  l.all (fun c => decide (0 < projectClipLen c))

/-- every clip of the list has `sourceIn ≤ sourceOut`. -/
def allNonnegLenB (l : List ProjectClip) : Bool :=
  l.all (fun c => decide (c.sourceIn ≤ c.sourceOut))

/-- every clip except possibly the first has length at least `q`. -/
def tailMinOkB (q : ℚ) (l : List AnalysisClip) : Bool :=
  l.tail.all (fun c => decide (q ≤ clipLen c))

/-- positionally, no clip of the first list is longer than the corresponding
clip of the second. -/
def noExtendB (a b : List ProjectClip) : Bool :=
  (a.zip b).all (fun p => decide (projectClipLen p.1 ≤ projectClipLen p.2))

/-- every clip's audio settings that the linked-mix trigger consults are at
their defaults (not muted, volume within 0.001 of 1). -/
def clipsAudioDefaultB (l : List ProjectClip) : Bool :=
  l.all (fun c => !c.audioMuted.getD false && decide (|c.audioVolume.getD 1 - 1| ≤ 1/1000))

/-! ### Concrete inputs used by counterexamples and witnesses -/

/-- a deterministic stand-in for `crypto.randomUUID()`. -/
def seqIds : ℕ → String := fun n => "uuid-" ++ toString n

/-- a single clip of source length 0.4 (counterexample input for the split
no-op claim). -/
def tlLen04 : ProjectTimeline :=
  { projectId := "p",
    clips := [{ id := "c", assetId := "a", label := "x", sourceIn := 0, sourceOut := 2/5 }] }

/-- a single clip of source length 0.3: every clip is ≥ 0.2 long, yet the
split produces a 0.1-long right piece. -/
def tlLen03 : ProjectTimeline :=
  { projectId := "p",
    clips := [{ id := "c", assetId := "a", label := "x", sourceIn := 0, sourceOut := 3/10 }] }

/-- two well-formed clips (witness input for split laws). -/
def tlTwoClips : ProjectTimeline :=
  { projectId := "p",
    clips := [{ id := "c1", assetId := "a", label := "", sourceIn := 0, sourceOut := 1 },
              { id := "c2", assetId := "a", label := "", sourceIn := 2, sourceOut := 3 }] }

/-- clips of lengths 4.9 and 1 (witness input for the trim laws). -/
def tlTrimIn : ProjectTimeline :=
  { projectId := "p",
    clips := [{ id := "t1", assetId := "a", label := "", sourceIn := 0, sourceOut := 49/10 },
              { id := "t2", assetId := "a", label := "", sourceIn := 0, sourceOut := 1 }] }

/-- an asset resolver that only knows asset "a". -/
def resolveOnlyA : String → Option String :=
  fun a => if a = "a" then some "/uploads/a.mp4" else none

/-- a clip list with one resolvable and one unresolvable clip. -/
def clipsOneBad : List ProjectClip :=
  [ { id := "1", assetId := "a", label := "", sourceIn := 0, sourceOut := 10 },
    { id := "2", assetId := "b", label := "", sourceIn := 0, sourceOut := 10 } ]

/-- a linked timeline whose only non-default audio setting is a 1-second
per-clip fade-in. -/
def tlFadeOnly : ProjectTimeline :=
  { projectId := "p",
    clips := [{ id := "c", assetId := "a", label := "x", sourceIn := 0, sourceOut := 10,
                audioFadeIn := some 1 }] }

/-- a resolver that resolves every asset id. -/
def resolveAll : String → Option String := fun _ => some "/uploads/a.mp4"

/-- a probe that reports an audio stream for every source. -/
def hasAudioAll : String → Bool := fun _ => true

/-- a concrete silence list, sorted by start (witness input for the interval
claims). -/
def silencesEx : List Interval := [⟨1, 2⟩, ⟨4, 5⟩]

/-! ## Lemmas -/

/-! ### Rotation normalization -/

theorem jsMod_nonneg_lt (a : ℚ) (h : 0 ≤ a) : 0 ≤ jsMod a 360 ∧ jsMod a 360 < 360 := by
  have hq : (360 : ℚ) * (a / 360) = a := by ring
  have ht : ratTrunc (a / 360) = ⌊a / 360⌋ := by
    unfold ratTrunc
    rw [if_pos (by positivity)]
  have h1 : ((⌊a / 360⌋ : ℤ) : ℚ) ≤ a / 360 := Int.floor_le _
  have h2 : a / 360 < (⌊a / 360⌋ : ℚ) + 1 := Int.lt_floor_add_one _
  unfold jsMod
  rw [ht]
  constructor <;> nlinarith

theorem jsMod_neg_bounds (a : ℚ) (h : a < 0) : -360 < jsMod a 360 ∧ jsMod a 360 ≤ 0 := by
  have hq : (360 : ℚ) * (a / 360) = a := by ring
  have ht : ratTrunc (a / 360) = ⌈a / 360⌉ := by
    unfold ratTrunc
    rw [if_neg (by intro hc; nlinarith)]
  have h1 : a / 360 ≤ ((⌈a / 360⌉ : ℤ) : ℚ) := Int.le_ceil _
  have h2 : ((⌈a / 360⌉ : ℤ) : ℚ) < a / 360 + 1 := Int.ceil_lt_add_one _
  unfold jsMod
  rw [ht]
  constructor <;> nlinarith

theorem normalizeRotationDegrees_range (v : ℚ) :
    0 ≤ normalizeRotationDegrees v ∧ normalizeRotationDegrees v < 360 := by
  unfold normalizeRotationDegrees
  rcases le_or_lt 0 v with hv | hv
  · obtain ⟨ha, _⟩ := jsMod_nonneg_lt v hv
    exact jsMod_nonneg_lt _ (by linarith)
  · obtain ⟨ha, _⟩ := jsMod_neg_bounds v hv
    exact jsMod_nonneg_lt _ (by linarith)

/-! ### splitProjectClipAt: when does it act? -/

theorem split_guard_iff (clip : ProjectClip) (s : ℚ) :
    (clip.sourceIn < clampQ s (clip.sourceIn + 1/5) (clip.sourceOut - 1/5) ∧
      clampQ s (clip.sourceIn + 1/5) (clip.sourceOut - 1/5) < clip.sourceOut) ↔
    1/5 < clip.sourceOut - clip.sourceIn := by
  unfold clampQ
  constructor
  · rintro ⟨_, h2⟩
    have := le_max_left (clip.sourceIn + 1/5) (min (clip.sourceOut - 1/5) s)
    linarith
  · intro h
    refine ⟨?_, ?_⟩
    · have := le_max_left (clip.sourceIn + 1/5) (min (clip.sourceOut - 1/5) s)
      linarith
    · apply max_lt (by linarith)
      have := min_le_left (clip.sourceOut - 1/5) s
      linarith

/-! ### Duration as a sum; split decomposition -/

theorem foldl_add_max (l : List ProjectClip) (a : ℚ) :
    l.foldl (fun sum c => sum + max 0 (c.sourceOut - c.sourceIn)) a
      = a + (l.map (fun c => max 0 (c.sourceOut - c.sourceIn))).sum := by
  induction l generalizing a with
  | nil => simp
  | cons c cs ih => simp [ih, add_assoc]

theorem projectDurationSeconds_eq (tl : ProjectTimeline) :
    projectDurationSeconds tl
      = (tl.clips.map (fun c => max 0 (c.sourceOut - c.sourceIn))).sum := by
  unfold projectDurationSeconds
  rw [foldl_add_max, zero_add]

theorem clips_decomp {l : List ProjectClip} {n : ℕ} {c : ProjectClip}
    (h : l[n]? = some c) : l = l.take n ++ c :: l.drop (n + 1) := by
  obtain ⟨hlt, hv⟩ := List.getElem?_eq_some.mp h
  conv_lhs => rw [← List.take_append_drop n l]
  rw [List.drop_eq_getElem_cons hlt, hv]

theorem splitClipAt_some_decomp (idL idR : String) (tl : ProjectTimeline)
    (clipId : String) (s : ℚ) (r : ProjectTimeline × String)
    (h : splitProjectClipAt idL idR tl clipId s = some r) :
    ∃ clip, tl.clips[tl.clips.findIdx (fun c => c.id == clipId)]? = some clip ∧
      clip.sourceIn < clampQ s (clip.sourceIn + 1/5) (clip.sourceOut - 1/5) ∧
      clampQ s (clip.sourceIn + 1/5) (clip.sourceOut - 1/5) < clip.sourceOut ∧
      r.1.clips
        = tl.clips.take (tl.clips.findIdx (fun c => c.id == clipId)) ++
          [{ clip with
               id := idL
               sourceOut := clampQ s (clip.sourceIn + 1/5) (clip.sourceOut - 1/5) },
           { clip with
               id := idR
               sourceIn := clampQ s (clip.sourceIn + 1/5) (clip.sourceOut - 1/5) }] ++
          tl.clips.drop (tl.clips.findIdx (fun c => c.id == clipId) + 1) := by
  unfold splitProjectClipAt at h
  dsimp only at h
  cases hc : tl.clips[tl.clips.findIdx fun c => c.id == clipId]? with
  | none => rw [hc] at h; exact absurd h (by simp)
  | some clip =>
    rw [hc] at h
    dsimp only at h
    split_ifs at h with hg
    obtain ⟨hg1, hg2⟩ := hg
    obtain rfl : _ = r := Option.some_inj.mp h
    exact ⟨clip, rfl, hg1, hg2, rfl⟩

/-! ### Trim auxiliary facts -/

theorem trimGo_pos (rem : ℚ) (cs : List ProjectClip)
    (h : ∀ c ∈ cs, 0 < c.sourceOut - c.sourceIn) :
    ∀ c ∈ trimGo rem cs, 0 < c.sourceOut - c.sourceIn := by
  induction cs generalizing rem with
  | nil => simp [trimGo]
  | cons c cs ih =>
    intro x hx
    unfold trimGo at hx
    split_ifs at hx with h0 hfit
    · exact absurd hx (by simp)
    · rcases List.mem_cons.mp hx with rfl | hx
      · exact h x (by simp)
      · exact ih _ (fun c hc => h c (List.mem_cons_of_mem _ hc)) x hx
    · rcases List.mem_cons.mp hx with rfl | hx
      · dsimp only
        linarith [not_le.mp h0]
      · exact absurd hx (by simp)

/-! ## Claim theorems -/

/-- C6 (amended): for every raw rotation value `v` the probe first normalizes
it to `((v mod 360) + 360) mod 360`, landing in `[0, 360)`, and then buckets
the result as `[0,45) ∪ (315,360) → 0`, `[45,135) → 90`, `[135,225) → 180`
and `[225,315] → 270` — the boundary 315 itself reports 270, not 0. -/
theorem rotationBucket_characterization (v : ℚ) :
    0 ≤ normalizeRotationDegrees v ∧ normalizeRotationDegrees v < 360 ∧
    (bucketRotationDegrees v = 0 ↔
      (normalizeRotationDegrees v < 45 ∨ 315 < normalizeRotationDegrees v)) ∧
    (bucketRotationDegrees v = 90 ↔
      (45 ≤ normalizeRotationDegrees v ∧ normalizeRotationDegrees v < 135)) ∧
    (bucketRotationDegrees v = 180 ↔
      (135 ≤ normalizeRotationDegrees v ∧ normalizeRotationDegrees v < 225)) ∧
    (bucketRotationDegrees v = 270 ↔
      (225 ≤ normalizeRotationDegrees v ∧ normalizeRotationDegrees v ≤ 315)) := by
  obtain ⟨h0, h1⟩ := normalizeRotationDegrees_range v
  unfold bucketRotationDegrees
  dsimp only
  split_ifs with ha hb hc
  · refine ⟨h0, h1, iff_of_true rfl ha.symm, ?_, ?_, ?_⟩
    · exact iff_of_false (by norm_num)
        (by rcases ha with h | h <;> rintro ⟨x, y⟩ <;> linarith)
    · exact iff_of_false (by norm_num)
        (by rcases ha with h | h <;> rintro ⟨x, y⟩ <;> linarith)
    · exact iff_of_false (by norm_num)
        (by rcases ha with h | h <;> rintro ⟨x, y⟩ <;> linarith)
  · push_neg at ha
    refine ⟨h0, h1, ?_, iff_of_true rfl hb, ?_, ?_⟩
    · exact iff_of_false (by norm_num) (by rintro (h | h) <;> linarith [hb.1, hb.2])
    · exact iff_of_false (by norm_num) (by rintro ⟨x, y⟩; linarith [hb.2])
    · exact iff_of_false (by norm_num) (by rintro ⟨x, y⟩; linarith [hb.2])
  · push_neg at ha hb
    refine ⟨h0, h1, ?_, ?_, iff_of_true rfl hc, ?_⟩
    · exact iff_of_false (by norm_num) (by rintro (h | h) <;> linarith [hc.1, hc.2])
    · exact iff_of_false (by norm_num) (by rintro ⟨x, y⟩; linarith [hc.1])
    · exact iff_of_false (by norm_num) (by rintro ⟨x, y⟩; linarith [hc.2])
  · push_neg at ha hb hc
    have h45 : 45 ≤ normalizeRotationDegrees v := ha.2
    have h135 : 135 ≤ normalizeRotationDegrees v := hb h45
    have h225 : 225 ≤ normalizeRotationDegrees v := hc h135
    refine ⟨h0, h1, ?_, ?_, ?_, iff_of_true rfl ⟨h225, ha.1⟩⟩
    · exact iff_of_false (by norm_num) (by rintro (h | h) <;> linarith [ha.1])
    · exact iff_of_false (by norm_num) (by rintro ⟨x, y⟩; linarith)
    · exact iff_of_false (by norm_num) (by rintro ⟨x, y⟩; linarith)

/-- C6 counterexample: a rotation tag of exactly 315 normalizes to 315 and is
bucketed to 270, not to 0 as the claim states (`rot > 315` is strict in the
source, so 315 falls through to the final `else`). -/
theorem rotation_315_maps_to_270 :
    normalizeRotationDegrees 315 = 315 ∧ bucketRotationDegrees 315 = 270 ∧
    ¬ bucketRotationDegrees 315 = 0 := by
  norm_num [bucketRotationDegrees, normalizeRotationDegrees, jsMod, ratTrunc]

/-- C2 (amended): `splitProjectClipAt` is a no-op unless the clamped split
point lies strictly inside the open interval `(clip.sourceIn,
clip.sourceOut)`; for an existing clip that happens exactly when the clip is
strictly longer than 0.2 seconds — independently of the requested time `t`.
Clips with length in (0.2, 0.4] are therefore split, not left alone. -/
theorem splitClipAt_noop_iff (idL idR : String) (tl : ProjectTimeline)
    (clipId : String) (s : ℚ) :
    (splitProjectClipAt idL idR tl clipId s).isSome = true ↔
      ∃ clip, tl.clips[tl.clips.findIdx (fun c => c.id == clipId)]? = some clip ∧
        1/5 < clip.sourceOut - clip.sourceIn := by
  unfold splitProjectClipAt
  dsimp only
  cases h : tl.clips[tl.clips.findIdx fun c => c.id == clipId]? with
  | none => simp [h]
  | some clip =>
    dsimp only
    split_ifs with hg
    · exact iff_of_true rfl ⟨clip, rfl, (split_guard_iff clip s).mp hg⟩
    · simp only [Option.isSome_none, Bool.false_eq_true, false_iff]
      rintro ⟨c, hc, hlen⟩
      obtain rfl : clip = c := by injection hc
      exact hg ((split_guard_iff clip s).mpr hlen)

/-- C10: whenever `splitProjectClipAt` returns a new timeline, the total
project duration is preserved exactly, the two replacement clips partition
the original clip (same source bounds, lengths summing to the original
length), and every other clip is kept unchanged in its original relative
position. -/
theorem splitClipAt_preserves_duration (idL idR : String) (tl : ProjectTimeline)
    (clipId : String) (s : ℚ) (r : ProjectTimeline × String)
    (h : splitProjectClipAt idL idR tl clipId s = some r) :
    projectDurationSeconds r.1 = projectDurationSeconds tl ∧
    ∃ idx clip left right,
      tl.clips[idx]? = some clip ∧
      r.1.clips = tl.clips.take idx ++ [left, right] ++ tl.clips.drop (idx + 1) ∧
      left.sourceIn = clip.sourceIn ∧ right.sourceOut = clip.sourceOut ∧
      left.sourceOut = right.sourceIn ∧
      projectClipLen left + projectClipLen right = projectClipLen clip := by
  obtain ⟨clip, hc, hg1, hg2, hr⟩ := splitClipAt_some_decomp idL idR tl clipId s r h
  constructor
  · rw [projectDurationSeconds_eq, projectDurationSeconds_eq, hr]
    conv_rhs => rw [clips_decomp hc]
    simp only [List.map_append, List.sum_append, List.map_cons, List.sum_cons,
      List.map_nil, List.sum_nil]
    rw [max_eq_right (by linarith), max_eq_right (by linarith),
      max_eq_right (by linarith)]
    ring
  · refine ⟨_, clip, _, _, hc, hr, rfl, rfl, rfl, ?_⟩
    unfold projectClipLen
    dsimp only
    ring

/-- C10 witness: the duration law applied to a concrete two-clip timeline. -/
theorem splitClipAt_preserves_duration_witness :
    projectDurationSeconds
        ((splitProjectClipAt "l" "r" tlTwoClips "c1" (1/2)).getD (tlTwoClips, "x")).1
      = projectDurationSeconds tlTwoClips :=
  (splitClipAt_preserves_duration "l" "r" tlTwoClips "c1" (1/2)
    ((splitProjectClipAt "l" "r" tlTwoClips "c1" (1/2)).getD (tlTwoClips, "x"))
    (by norm_num [splitProjectClipAt, tlTwoClips, clampQ, List.findIdx, List.findIdx.go])).1

/-- C3 (amended): the 0.2-second minimum-length invariant is not preserved in
general; what the code guarantees is weaker.  `splitProjectClipAt` keeps
every clip at length ≥ 0.2 provided every input clip is at least 0.4 long
(so both pieces clear the 0.2 clamp margins), and
`trimProjectTimelineToTargetSeconds` preserves positivity of clip lengths
but not any 0.2 lower bound (its final clip is truncated to whatever budget
remains). -/
theorem timeline_write_length_bounds :
    (∀ (idL idR : String) (tl : ProjectTimeline) (clipId : String) (s : ℚ),
      allLenAtLeastB (2/5) tl.clips = true →
      allLenAtLeastB (1/5)
        (((splitProjectClipAt idL idR tl clipId s).map Prod.fst).getD tl).clips = true) ∧
    (∀ (tl : ProjectTimeline) (target : ℚ),
      allPosLenB tl.clips = true →
      allPosLenB (trimProjectTimelineToTargetSeconds tl target).clips = true) := by
  constructor
  · intro idL idR tl clipId s hall
    simp only [allLenAtLeastB, List.all_eq_true, decide_eq_true_eq, projectClipLen] at hall ⊢
    cases hsplit : splitProjectClipAt idL idR tl clipId s with
    | none =>
      exact fun c hc => le_trans (by norm_num) (hall c hc)
    | some r =>
      obtain ⟨clip, hc, hg1, hg2, hr⟩ := splitClipAt_some_decomp idL idR tl clipId s r hsplit
      intro c hcmem
      simp only [Option.map_some', Option.getD_some] at hcmem
      rw [hr] at hcmem
      have hclen : 2/5 ≤ clip.sourceOut - clip.sourceIn :=
        hall clip (List.getElem?_mem hc)
      have htlow : clip.sourceIn + 1/5
          ≤ clampQ s (clip.sourceIn + 1/5) (clip.sourceOut - 1/5) := le_max_left _ _
      have hthigh : clampQ s (clip.sourceIn + 1/5) (clip.sourceOut - 1/5)
          ≤ clip.sourceOut - 1/5 :=
        max_le (by linarith) (min_le_left _ _)
      rcases List.mem_append.mp hcmem with hmem | hdrop
      · rcases List.mem_append.mp hmem with htake | hmid
        · exact le_trans (by norm_num) (hall c (List.mem_of_mem_take htake))
        · rcases List.mem_cons.mp hmid with rfl | hmid
          · dsimp only; linarith
          · rcases List.mem_cons.mp hmid with rfl | hmid
            · dsimp only; linarith
            · exact absurd hmid (by simp)
      · exact le_trans (by norm_num) (hall c (List.mem_of_mem_drop hdrop))
  · intro tl target hall
    simp only [allPosLenB, List.all_eq_true, decide_eq_true_eq, projectClipLen] at hall ⊢
    unfold trimProjectTimelineToTargetSeconds
    split_ifs with hnil
    · exact hall
    · exact fun c hc => trimGo_pos _ _ hall c hc

/-- C3 witness: the two bounds applied at concrete inputs (a 1-second clip
split in half; a 5.9-second timeline trimmed to 3 seconds). -/
theorem timeline_write_length_bounds_witness :
    allLenAtLeastB (2/5) tlTwoClips.clips = true ∧
    allLenAtLeastB (1/5)
      (((splitProjectClipAt "l" "r" tlTwoClips "c1" (1/2)).map Prod.fst).getD tlTwoClips).clips
      = true ∧
    allPosLenB tlTrimIn.clips = true ∧
    allPosLenB (trimProjectTimelineToTargetSeconds tlTrimIn 3).clips = true := by
  have h1 : allLenAtLeastB (2/5) tlTwoClips.clips = true := by
    norm_num [allLenAtLeastB, tlTwoClips, projectClipLen]
  have h2 : allPosLenB tlTrimIn.clips = true := by
    norm_num [allPosLenB, tlTrimIn, projectClipLen]
  exact ⟨h1, timeline_write_length_bounds.1 "l" "r" tlTwoClips "c1" (1/2) h1, h2,
    timeline_write_length_bounds.2 tlTrimIn 3 h2⟩

/-- C3 counterexample: a timeline whose single clip is 0.3 long (so every
clip is ≥ 0.2, the claimed invariant) is split by `splitProjectClipAt` into
pieces of lengths 0.2 and 0.1 — the produced timeline violates the claimed
invariant. -/
theorem splitClipAt_creates_sub02_clip :
    allLenAtLeastB (1/5) tlLen03.clips = true ∧
    ((splitProjectClipAt "l" "r" tlLen03 "c" (1/4)).map (fun r => r.1.clips.map projectClipLen))
      = some [1/5, 1/10] ∧
    ¬ ((1/5 : ℚ) ≤ 1/10) := by
  refine ⟨?_, ?_, by norm_num⟩
  · norm_num [allLenAtLeastB, tlLen03, projectClipLen]
  · norm_num [splitProjectClipAt, tlLen03, clampQ, List.findIdx, List.findIdx.go,
      projectClipLen]

/-- C2 counterexample: a clip of length exactly 0.4 — where the open interval
`(sourceIn + 0.2, sourceOut - 0.2)` is empty, so the claim demands a no-op —
is nevertheless split. -/
theorem splitClipAt_splits_a_04_clip :
    tlLen04.clips.map projectClipLen = [2/5] ∧
    (splitProjectClipAt "l" "r" tlLen04 "c" (1/5)).isSome = true := by
  constructor
  · norm_num [tlLen04, projectClipLen]
  · norm_num [splitProjectClipAt, tlLen04, clampQ, List.findIdx, List.findIdx.go]

theorem trimGo_spec (cs : List ProjectClip) (rem : ℚ)
    (h : ∀ c ∈ cs, c.sourceIn ≤ c.sourceOut) :
    ((trimGo rem cs).map (fun c => max 0 (c.sourceOut - c.sourceIn))).sum ≤ max rem 0 ∧
    (trimGo rem cs).map (fun c => c.id)
      = (cs.map (fun c => c.id)).take (trimGo rem cs).length ∧
    ∀ p ∈ (trimGo rem cs).zip cs, projectClipLen p.1 ≤ projectClipLen p.2 := by
  induction cs generalizing rem with
  | nil => simp [trimGo]
  | cons c cs ih =>
    have hc : c.sourceIn ≤ c.sourceOut := h c (by simp)
    have hrest : ∀ x ∈ cs, x.sourceIn ≤ x.sourceOut :=
      fun x hx => h x (List.mem_cons_of_mem _ hx)
    unfold trimGo
    split_ifs with h0 hfit
    · simp [le_max_right]
    · obtain ⟨ihs, ihi, ihz⟩ := ih (rem - (c.sourceOut - c.sourceIn)) hrest
      refine ⟨?_, ?_, ?_⟩
      · simp only [List.map_cons, List.sum_cons]
        have hm : max 0 (c.sourceOut - c.sourceIn) = c.sourceOut - c.sourceIn :=
          max_eq_right (by linarith)
        have hrem : max (rem - (c.sourceOut - c.sourceIn)) 0
            = rem - (c.sourceOut - c.sourceIn) := max_eq_left (by linarith)
        rw [hm]
        rw [hrem] at ihs
        have : max rem 0 = rem := max_eq_left (by linarith)
        rw [this]
        linarith
      · simp only [List.map_cons, List.length_cons, List.take_succ_cons]
        rw [ihi]
      · intro p hp
        rcases List.mem_cons.mp hp with rfl | hp
        · exact le_refl _
        · exact ihz p hp
    · refine ⟨?_, ?_, ?_⟩
      · simp only [List.map_cons, List.sum_cons, List.map_nil, List.sum_nil]
        have : max 0 (c.sourceIn + rem - c.sourceIn) = rem := by
          rw [max_eq_right (by linarith)]
          ring
        rw [this]
        simp [le_max_left]
      · simp
      · intro p hp
        rcases List.mem_cons.mp hp with rfl | hp
        · unfold projectClipLen
          dsimp only
          linarith [not_le.mp hfit]
        · exact absurd hp (by simp)

/-- C7: for every well-formed timeline (each clip has `sourceIn ≤ sourceOut`,
the data-model invariant) and every target, the trimmed timeline's
`projectDurationSeconds` is at most `max(target, 5)`, the surviving clips are
an in-order prefix of the input clips (same ids, same order), and no clip's
length is extended. -/
theorem trimToTarget_bounds (tl : ProjectTimeline) (target : ℚ)
    (h : allNonnegLenB tl.clips = true) :
    projectDurationSeconds (trimProjectTimelineToTargetSeconds tl target) ≤ max target 5 ∧
    (trimProjectTimelineToTargetSeconds tl target).clips.map (fun c => c.id)
      = (tl.clips.map (fun c => c.id)).take
          (trimProjectTimelineToTargetSeconds tl target).clips.length ∧
    noExtendB (trimProjectTimelineToTargetSeconds tl target).clips tl.clips = true := by
  simp only [allNonnegLenB, List.all_eq_true, decide_eq_true_eq] at h
  unfold trimProjectTimelineToTargetSeconds
  dsimp only
  split_ifs with hnil
  · refine ⟨?_, by simp [hnil], by simp [noExtendB, hnil]⟩
    rw [projectDurationSeconds_eq, hnil]
    simp only [List.map_nil, List.sum_nil]
    linarith [le_max_right target 5]
  · obtain ⟨hs, hi, hz⟩ := trimGo_spec tl.clips (max 5 target) h
    refine ⟨?_, hi, ?_⟩
    · rw [projectDurationSeconds_eq]
      refine le_trans hs ?_
      rw [max_eq_left (le_trans (by norm_num) (le_max_left 5 target))]
      rw [max_comm]
    · simp only [noExtendB, List.all_eq_true, decide_eq_true_eq]
      exact hz

/-- C7 witness: the trim laws applied to a concrete 5.9-second timeline with
a 3-second target. -/
theorem trimToTarget_bounds_witness :
    allNonnegLenB tlTrimIn.clips = true ∧
    (projectDurationSeconds (trimProjectTimelineToTargetSeconds tlTrimIn 3) ≤ max 3 5 ∧
    (trimProjectTimelineToTargetSeconds tlTrimIn 3).clips.map (fun c => c.id)
      = (tlTrimIn.clips.map (fun c => c.id)).take
          (trimProjectTimelineToTargetSeconds tlTrimIn 3).clips.length ∧
    noExtendB (trimProjectTimelineToTargetSeconds tlTrimIn 3).clips tlTrimIn.clips = true) := by
  have h : allNonnegLenB tlTrimIn.clips = true := by
    norm_num [allNonnegLenB, tlTrimIn]
  exact ⟨h, trimToTarget_bounds tlTrimIn 3 h⟩

theorem specOffsets_cons (x : ℚ) (ls : List ℚ) :
    specOffsets (x :: ls) = 0 :: (specOffsets ls).map (fun v => x + v) := by
  unfold specOffsets
  rw [List.length_cons, List.range_succ_eq_map]
  simp only [List.map_cons, List.take_zero, List.sum_nil, List.map_map, Function.comp]
  congr 1

theorem projectClipOffsetsGo_spec (cs : List ProjectClip) (t : ℚ)
    (h : ∀ c ∈ cs, 0 < c.sourceOut - c.sourceIn) :
    (projectClipOffsetsGo t cs).map Prod.snd
      = (specOffsets (cs.map projectClipLen)).map (fun v => t + v) := by
  induction cs generalizing t with
  | nil => simp [projectClipOffsetsGo, specOffsets]
  | cons c cs ih =>
    have hc : 0 < c.sourceOut - c.sourceIn := h c (by simp)
    unfold projectClipOffsetsGo
    rw [List.map_cons, List.map_cons, specOffsets_cons, List.map_cons]
    congr 1
    · simp
    · rw [ih _ (fun x hx => h x (List.mem_cons_of_mem _ hx)), List.map_map]
      congr 1
      funext v
      simp only [Function.comp_apply]
      rw [max_eq_right (le_of_lt hc)]
      unfold projectClipLen
      ring

theorem projectClipOffsetsGo_chain (cs : List ProjectClip) (t : ℚ)
    (h : ∀ c ∈ cs, 0 < c.sourceOut - c.sourceIn) :
    List.Chain' (· < ·) ((projectClipOffsetsGo t cs).map Prod.snd) := by
  induction cs generalizing t with
  | nil => simp [projectClipOffsetsGo]
  | cons c cs ih =>
    unfold projectClipOffsetsGo
    rw [List.map_cons, List.chain'_cons']
    refine ⟨?_, ih _ (fun x hx => h x (List.mem_cons_of_mem _ hx))⟩
    intro b hb
    cases cs with
    | nil => simp [projectClipOffsetsGo] at hb
    | cons d ds =>
      unfold projectClipOffsetsGo at hb
      rw [List.map_cons, List.head?_cons] at hb
      obtain rfl : _ = b := Option.some_inj.mp hb
      have hpos : (0:ℚ) < max 0 (c.sourceOut - c.sourceIn) :=
        lt_of_lt_of_le (h c (by simp)) (le_max_right _ _)
      dsimp only
      linarith

/-- C8: for every timeline whose clips all have positive length and distinct
ids (the data-model invariants), `projectDurationSeconds` equals the plain
sum of `sourceOut - sourceIn`, and `projectClipOffsets` assigns each clip
the prefix sum of the lengths of all preceding clips — a strictly increasing
sequence starting at 0. -/
theorem duration_and_offsets_spec (tl : ProjectTimeline)
    (hpos : allPosLenB tl.clips = true)
    (_hids : (tl.clips.map (fun c => c.id)).Nodup) :
    projectDurationSeconds tl = (tl.clips.map projectClipLen).sum ∧
    (projectClipOffsets tl).map Prod.snd = specOffsets (tl.clips.map projectClipLen) ∧
    List.Chain' (· < ·) ((projectClipOffsets tl).map Prod.snd) ∧
    ((projectClipOffsets tl).map Prod.snd).head?
      = tl.clips.head?.map (fun _ => (0:ℚ)) := by
  simp only [allPosLenB, List.all_eq_true, decide_eq_true_eq, projectClipLen] at hpos
  refine ⟨?_, ?_, ?_, ?_⟩
  · rw [projectDurationSeconds_eq]
    congr 1
    apply List.map_congr_left
    intro c hc
    unfold projectClipLen
    exact max_eq_right (le_of_lt (hpos c hc))
  · unfold projectClipOffsets
    rw [projectClipOffsetsGo_spec _ _ hpos]
    simp
  · exact projectClipOffsetsGo_chain _ _ hpos
  · unfold projectClipOffsets
    cases tl.clips with
    | nil => simp [projectClipOffsetsGo]
    | cons c cs => simp [projectClipOffsetsGo]

/-- C8 witness: the duration/offset laws applied to a concrete two-clip
timeline. -/
theorem duration_and_offsets_spec_witness :
    allPosLenB tlTwoClips.clips = true ∧
    (tlTwoClips.clips.map (fun c => c.id)).Nodup ∧
    (projectDurationSeconds tlTwoClips = (tlTwoClips.clips.map projectClipLen).sum ∧
    (projectClipOffsets tlTwoClips).map Prod.snd
      = specOffsets (tlTwoClips.clips.map projectClipLen) ∧
    List.Chain' (· < ·) ((projectClipOffsets tlTwoClips).map Prod.snd) ∧
    ((projectClipOffsets tlTwoClips).map Prod.snd).head?
      = tlTwoClips.clips.head?.map (fun _ => (0:ℚ))) := by
  have h1 : allPosLenB tlTwoClips.clips = true := by
    norm_num [allPosLenB, tlTwoClips, projectClipLen]
  have h2 : (tlTwoClips.clips.map (fun c => c.id)).Nodup := by decide
  exact ⟨h1, h2, duration_and_offsets_spec tlTwoClips h1 h2⟩

theorem buildRenderClips_eq_nil_iff (resolve : String → Option String)
    (clips : List ProjectClip) :
    buildRenderClips resolve clips = [] ↔
      ∀ c ∈ clips, resolve c.assetId = none ∨ c.sourceOut ≤ c.sourceIn + 1/20 := by
  induction clips with
  | nil => simp [buildRenderClips]
  | cons c cs ih =>
    unfold buildRenderClips at ih ⊢
    rw [List.filterMap_cons]
    cases hres : resolve c.assetId with
    | none =>
      constructor
      · intro h x hx
        rcases List.mem_cons.mp hx with rfl | hx
        · exact Or.inl hres
        · exact ih.mp h x hx
      · intro h
        exact ih.mpr (fun x hx => h x (List.mem_cons_of_mem _ hx))
    | some url =>
      simp only [Option.map_some']
      rw [List.filter_cons]
      by_cases hp : c.sourceIn + 1/20 < c.sourceOut
      · rw [if_pos (by simp only [decide_eq_true_eq]; exact hp)]
        constructor
        · intro habs
          exact absurd habs (List.cons_ne_nil _ _)
        · intro hall
          exfalso
          rcases hall c (List.mem_cons_self _ _) with hnone | hle
          · rw [hres] at hnone
            exact Option.some_ne_none _ hnone
          · linarith
      · rw [if_neg (by simp only [decide_eq_true_eq]; exact hp)]
        rw [ih]
        constructor
        · intro hall x hx
          rcases List.mem_cons.mp hx with rfl | hx
          · exact Or.inr (not_lt.mp hp)
          · exact hall x hx
        · intro hall x hx
          exact hall x (List.mem_cons_of_mem _ hx)

/-- C4 (amended): export clip validation is not fatal per clip — a clip whose
asset does not resolve, or which fails `sourceOut > sourceIn + 0.05`, is
silently dropped, and the request is rejected (with "Timeline has no usable
clips") exactly when no clip survives the filtering; if at least one clip
survives, the export proceeds with the surviving clips. -/
theorem exportValidation_rejects_iff (resolve : String → Option String)
    (clips : List ProjectClip) :
    ((validateExportClips resolve clips).isOk = true ↔
      ∃ c ∈ clips, (resolve c.assetId).isSome = true ∧ c.sourceIn + 1/20 < c.sourceOut) := by
  unfold validateExportClips
  dsimp only
  split_ifs with hnil
  · constructor
    · intro habs; exact absurd habs (by simp [Except.isOk, Except.toBool])
    · rintro ⟨c, hc, hsome, hlt⟩
      rcases (buildRenderClips_eq_nil_iff resolve clips).mp hnil c hc with hnone | hle
      · rw [hnone] at hsome; exact absurd hsome (by simp)
      · linarith
  · constructor
    · intro _
      by_contra hnone
      push_neg at hnone
      apply hnil
      rw [buildRenderClips_eq_nil_iff]
      intro c hc
      by_cases hres : (resolve c.assetId).isSome = true
      · exact Or.inr (by linarith [hnone c hc hres])
      · exact Or.inl (Option.not_isSome_iff_eq_none.mp (by simpa using hres))
    · intro _; simp [Except.isOk, Except.toBool]

/-- C4 counterexample: a timeline with one resolvable clip and one clip whose
asset id "b" does not resolve is accepted — the bad clip is silently dropped
and the export proceeds with the rest, instead of being rejected as the
claim states. -/
theorem exportValidation_drops_bad_clip :
    (validateExportClips resolveOnlyA clipsOneBad).isOk = true ∧
    resolveOnlyA "b" = none ∧
    clipsOneBad.map (fun c => c.assetId) = ["a", "b"] := by
  refine ⟨?_, by simp [resolveOnlyA], by simp [clipsOneBad]⟩
  have h : buildRenderClips resolveOnlyA clipsOneBad
      = [{ src := "/uploads/a.mp4", inpoint := 0, outpoint := 10 }] := by
    have hb : (("b" : String) = "a") = False := eq_false (by decide)
    have ha : (("a" : String) = "a") = True := eq_true rfl
    simp only [buildRenderClips, resolveOnlyA, clipsOneBad, List.filterMap_cons,
      List.filterMap_nil, ha, hb, if_true, if_false]
    norm_num
  simp [validateExportClips, h, Except.isOk, Except.toBool]

/-- C5 (amended): in linked-audio mode with the track not fully muted, the
derived-lane mix build is triggered only by volume or mute deviations (track
volume off by more than 0.001, a muted clip, or a clip volume off by more
than 0.001); when all of those are at their defaults no audio plan is built,
even if clips carry non-zero fade-in/fade-out settings — per-clip fades alone
never trigger the mix. -/
theorem linkedAudioPlan_requires_volume_or_mute (resolve : String → Option String)
    (hasAudio : String → Bool) (tl : ProjectTimeline)
    (hlink : unlinkedAudio tl = false)
    (hvol : |trackVolOf tl - 1| ≤ 1/1000)
    (hdef : clipsAudioDefaultB tl.clips = true) :
    audioPlan resolve hasAudio tl = none := by
  have hmix : linkedNeedsMix tl = false := by
    unfold linkedNeedsMix
    rw [hlink]
    have hX : (decide (1/1000 < |trackVolOf tl - 1|)
        || tl.clips.any (fun c =>
            c.audioMuted.getD false || decide (1/1000 < |c.audioVolume.getD 1 - 1|))) = false := by
      simp only [Bool.or_eq_false_iff, decide_eq_false_iff_not, not_lt, List.any_eq_false]
      refine ⟨hvol, ?_⟩
      intro c hc
      simp only [clipsAudioDefaultB, List.all_eq_true, Bool.and_eq_true,
        Bool.not_eq_true', decide_eq_true_eq] at hdef
      obtain ⟨hm, hv⟩ := hdef c hc
      rw [hm, Bool.false_or]
      simp only [decide_eq_true_eq, not_lt]
      linarith
    rw [hX]
    simp
  unfold audioPlan
  dsimp only
  rw [hlink, hmix]
  simp

/-- C5 witness: the amended law applied to the fade-only timeline with a
total resolver and audio probe. -/
theorem linkedAudioPlan_requires_volume_or_mute_witness :
    unlinkedAudio tlFadeOnly = false ∧ |trackVolOf tlFadeOnly - 1| ≤ 1/1000 ∧
    clipsAudioDefaultB tlFadeOnly.clips = true ∧
    audioPlan resolveAll hasAudioAll tlFadeOnly = none := by
  have h1 : unlinkedAudio tlFadeOnly = false := by norm_num [unlinkedAudio, tlFadeOnly]
  have h2 : |trackVolOf tlFadeOnly - 1| ≤ 1/1000 := by
    norm_num [trackVolOf, clampQ, tlFadeOnly]
  have h3 : clipsAudioDefaultB tlFadeOnly.clips = true := by
    norm_num [clipsAudioDefaultB, tlFadeOnly]
  exact ⟨h1, h2, h3,
    linkedAudioPlan_requires_volume_or_mute resolveAll hasAudioAll tlFadeOnly h1 h2 h3⟩

/-- C5 counterexample: a linked, unmuted timeline whose only deviation from
defaults is a per-clip `audioFadeIn` of 1 second builds no audio plan — the
mix trigger consults only volume and mute, so the claim's "fade settings
trigger the derived-lane mix build" fails. -/
theorem linkedAudioPlan_ignores_fades :
    unlinkedAudio tlFadeOnly = false ∧ exportMuted tlFadeOnly = false ∧
    tlFadeOnly.clips.map (fun c => c.audioFadeIn) = [some 1] ∧
    audioPlan resolveAll hasAudioAll tlFadeOnly = none := by
  refine ⟨by norm_num [unlinkedAudio, tlFadeOnly],
    by norm_num [exportMuted, trackVolOf, clampQ, tlFadeOnly],
    by norm_num [tlFadeOnly], ?_⟩
  norm_num [audioPlan, exportMuted, unlinkedAudio, linkedNeedsMix, trackVolOf,
    clampQ, tlFadeOnly]

/-! ### Interval algebra lemmas (merge sorted-ness, invert disjointness) -/

theorem mergeGo_append (pad : ℚ) (rest : List Interval) :
    ∀ (l : List Interval) (cur : Interval),
      mergeGo pad rest (l ++ [cur]) = l ++ mergeRec pad cur rest := by
  induction rest with
  | nil => intro l cur; simp [mergeGo, mergeRec]
  | cons it rest ih =>
    intro l cur
    unfold mergeGo mergeRec
    rw [List.getLast?_concat]
    dsimp only
    split_ifs with hle
    · rw [List.dropLast_concat, ih]
    · rw [show (l ++ [cur]) ++ [(⟨it.start - pad, it.stop + pad⟩ : Interval)]
          = l ++ [cur] ++ [(⟨it.start - pad, it.stop + pad⟩ : Interval)] from rfl, ih]
      simp

theorem mergeIntervals_eq_rec (pad : ℚ) (it : Interval) (rest : List Interval) :
    mergeIntervals (it :: rest) pad
      = mergeRec pad ⟨it.start - pad, it.stop + pad⟩ rest := by
  unfold mergeIntervals mergeGo
  dsimp only
  rw [show ([(⟨it.start - pad, it.stop + pad⟩ : Interval)])
      = [] ++ [(⟨it.start - pad, it.stop + pad⟩ : Interval)] from rfl, mergeGo_append]
  simp

theorem mergeRec_starts (pad : ℚ) (rest : List Interval) :
    ∀ (cur : Interval),
      List.Pairwise (fun x y => x.start ≤ y.start) rest →
      (∀ x ∈ rest, cur.start ≤ x.start - pad) →
      List.Pairwise (fun x y => x.start ≤ y.start) (mergeRec pad cur rest) ∧
      ∀ m ∈ mergeRec pad cur rest, cur.start ≤ m.start := by
  induction rest with
  | nil =>
    intro cur _ _
    refine ⟨List.pairwise_singleton _ _, ?_⟩
    intro m hm
    rcases List.mem_singleton.mp hm with rfl
    exact le_refl _
  | cons it rest ih =>
    intro cur hsort hcur
    obtain ⟨hit, hrest⟩ := List.pairwise_cons.mp hsort
    unfold mergeRec
    dsimp only
    split_ifs with hle
    · exact ih ⟨cur.start, max cur.stop (it.stop + pad)⟩ hrest
        (fun x hx => hcur x (List.mem_cons_of_mem _ hx))
    · have hih := ih ⟨it.start - pad, it.stop + pad⟩ hrest
        (fun x hx => by dsimp only; linarith [hit x hx])
      refine ⟨List.pairwise_cons.mpr ⟨?_, hih.1⟩, ?_⟩
      · intro m hm
        exact le_trans (hcur it (List.mem_cons_self _ _)) (hih.2 m hm)
      · intro m hm
        rcases List.mem_cons.mp hm with rfl | hm
        · exact le_refl _
        · exact le_trans (hcur it (List.mem_cons_self _ _)) (hih.2 m hm)

theorem mergeIntervals_sorted (pad : ℚ) (silences : List Interval)
    (hsort : List.Pairwise (fun x y => x.start ≤ y.start) silences) :
    List.Pairwise (fun x y => x.start ≤ y.start) (mergeIntervals silences pad) := by
  cases silences with
  | nil => simp [mergeIntervals, mergeGo]
  | cons it rest =>
    rw [mergeIntervals_eq_rec]
    obtain ⟨hit, hrest⟩ := List.pairwise_cons.mp hsort
    exact (mergeRec_starts pad rest ⟨it.start - pad, it.stop + pad⟩ hrest
      (fun x hx => by dsimp only; linarith [hit x hx])).1

theorem invertGo_spec (a b : ℚ) (M : List Interval) (hab : a ≤ b) :
    ∀ (cur : ℚ), a ≤ cur →
      List.Pairwise (fun x y => x.start ≤ y.start) M →
      ∀ g ∈ invertGo a b cur M,
        cur ≤ g.start ∧ g.start < g.stop ∧ g.stop ≤ b ∧
        ∀ m ∈ M, min g.stop m.stop ≤ max g.start m.start := by
  induction M with
  | nil =>
    intro cur _ _ g hg
    unfold invertGo at hg
    split_ifs at hg with hlt
    · rcases List.mem_singleton.mp hg with rfl
      exact ⟨le_refl _, hlt, le_refl b, by simp⟩
    · exact absurd hg (List.not_mem_nil g)
  | cons s rest ih =>
    intro cur hcur hM g hg
    obtain ⟨hs, hrest⟩ := List.pairwise_cons.mp hM
    unfold invertGo at hg
    rcases List.mem_append.mp hg with hpre | hrec
    · split_ifs at hpre with hlt
      · rcases List.mem_singleton.mp hpre with rfl
        dsimp only
        refine ⟨le_refl _, hlt, max_le hab (min_le_left _ _), ?_⟩
        intro m hm
        refine le_trans (min_le_left _ _) ?_
        rcases List.mem_cons.mp hm with rfl | hm
        · exact max_le (le_trans hcur (le_max_left _ _))
            (le_trans (min_le_right _ _) (le_max_right _ _))
        · exact max_le (le_trans hcur (le_max_left _ _))
            (le_trans (le_trans (min_le_right _ _) (hs m hm)) (le_max_right _ _))
      · exact absurd hpre (List.not_mem_nil g)
    · obtain ⟨hgs, hglen, hgb, hrestm⟩ :=
        ih (max cur (clampQ s.stop a b)) (le_trans hcur (le_max_left _ _)) hrest g hrec
      refine ⟨le_trans (le_max_left _ _) hgs, hglen, hgb, ?_⟩
      intro m hm
      rcases List.mem_cons.mp hm with rfl | hm
      · have h1 : min b m.stop ≤ g.start :=
          le_trans (le_trans (le_max_right a _) (le_max_right cur _)) hgs
        exact le_trans (le_trans (min_le_min hgb (le_refl _)) h1) (le_max_left _ _)
      · exact hrestm m hm

/-- any interval pairwise-disjoint from every member of a list overlaps it
for zero seconds. -/
theorem overlapSeconds_eq_zero (g : Interval) (l : List Interval)
    (h : ∀ m ∈ l, min g.stop m.stop ≤ max g.start m.start) :
    overlapSeconds g l = 0 := by
  unfold overlapSeconds
  induction l with
  | nil => rfl
  | cons m ms ih =>
    rw [List.foldl_cons]
    have hz : (if max g.start m.start < min g.stop m.stop
        then (0:ℚ) + (min g.stop m.stop - max g.start m.start) else 0) = 0 :=
      if_neg (not_lt.mpr (h m (List.mem_cons_self _ _)))
    dsimp only at hz ⊢
    rw [hz]
    exact ih (fun x hx => h x (List.mem_cons_of_mem _ hx))

/-- C9: for a domain with `start ≤ end` and silences sorted by start, every
interval produced by `invert(domain, merge(silences))` has positive length,
lies entirely inside the domain, and overlaps the padded, merged silence set
for zero seconds (in the sense of `overlapSeconds`). -/
theorem invert_merge_disjoint (domain : Interval) (silences : List Interval) (pad : ℚ)
    (hdom : domain.start ≤ domain.stop)
    (hsort : List.Pairwise (fun x y => x.start ≤ y.start) silences) :
    ∀ g ∈ invertIntervals domain (mergeIntervals silences pad),
      0 < g.stop - g.start ∧ domain.start ≤ g.start ∧ g.stop ≤ domain.stop ∧
      overlapSeconds g (mergeIntervals silences pad) = 0 := by
  intro g hg
  unfold invertIntervals at hg
  have hg' := List.mem_of_mem_filter hg
  have hM := mergeIntervals_sorted pad silences hsort
  obtain ⟨h1, h2, h3, h4⟩ :=
    invertGo_spec domain.start domain.stop (mergeIntervals silences pad) hdom
      domain.start (le_refl _) hM g hg'
  exact ⟨by linarith [h2], h1, h3, overlapSeconds_eq_zero g _ h4⟩

/-- C9 witness: the law applied to domain [0,10], sorted silences
[1,2], [4,5] and pad 0.05, at the produced gap [0, 0.95]. -/
theorem invert_merge_disjoint_witness :
    ((0:ℚ) ≤ 10) ∧
    List.Pairwise (fun x y => x.start ≤ y.start) silencesEx ∧
    (0 < (19/20 : ℚ) - 0 ∧ (0:ℚ) ≤ 0 ∧ (19/20 : ℚ) ≤ 10 ∧
      overlapSeconds ⟨0, 19/20⟩ (mergeIntervals silencesEx (1/20)) = 0) := by
  have hs : List.Pairwise (fun x y => x.start ≤ y.start) silencesEx := by
    unfold silencesEx
    refine List.pairwise_cons.mpr ⟨?_, List.pairwise_singleton _ _⟩
    intro m hm
    rcases List.mem_singleton.mp hm with rfl
    norm_num
  refine ⟨by norm_num, hs, ?_⟩
  exact invert_merge_disjoint ⟨0, 10⟩ silencesEx (1/20) (by norm_num) hs ⟨0, 19/20⟩
    (by norm_num [invertIntervals, invertGo, mergeIntervals, mergeGo, clampQ, silencesEx])

/-! ### Auto-timeline synthesis lemmas -/

theorem mem_insertSorted (x y : ℚ) (l : List ℚ) :
    y ∈ insertSorted x l ↔ y = x ∨ y ∈ l := by
  induction l with
  | nil => simp [insertSorted]
  | cons z zs ih =>
    unfold insertSorted
    split_ifs with hle
    · simp [List.mem_cons]
    · simp only [List.mem_cons, ih]
      tauto

theorem pairwise_insertSorted (x : ℚ) (l : List ℚ)
    (h : List.Pairwise (· ≤ ·) l) : List.Pairwise (· ≤ ·) (insertSorted x l) := by
  induction l with
  | nil => simp [insertSorted]
  | cons z zs ih =>
    obtain ⟨hz, hzs⟩ := List.pairwise_cons.mp h
    unfold insertSorted
    split_ifs with hle
    · refine List.pairwise_cons.mpr ⟨?_, h⟩
      intro y hy
      rcases List.mem_cons.mp hy with rfl | hy
      · exact hle
      · exact le_trans hle (hz y hy)
    · refine List.pairwise_cons.mpr ⟨?_, ih hzs⟩
      intro y hy
      rcases (mem_insertSorted x y zs).mp hy with rfl | hy
      · exact le_of_not_le hle
      · exact hz y hy

theorem sortTimes_sorted (l : List ℚ) : List.Pairwise (· ≤ ·) (sortTimes l) := by
  induction l with
  | nil => simp [sortTimes]
  | cons x xs ih => exact pairwise_insertSorted x (sortTimes xs) ih

theorem rawClips_spec (g : ℕ → String) :
    ∀ (ts : List ℚ), List.Pairwise (· ≤ ·) ts → ∀ i,
      List.Pairwise (fun x y => x.stop ≤ y.start) (rawClips g i ts) ∧
      (∀ c ∈ rawClips g i ts, 1/4 ≤ clipLen c) ∧
      (∀ c ∈ rawClips g i ts, ∀ hd ∈ ts.head?, hd ≤ c.start) := by
  intro ts
  induction ts with
  | nil => intro _ i; simp [rawClips]
  | cons a ts ih =>
    intro hsort i
    cases ts with
    | nil => simp [rawClips]
    | cons b rest =>
      obtain ⟨ha, hrest⟩ := List.pairwise_cons.mp hsort
      have hab : a ≤ b := ha b (by simp)
      obtain ⟨ihsep, ihlen, ihstart⟩ := ih hrest (i + 1)
      have hbhead : ∀ c ∈ rawClips g (i + 1) (b :: rest), b ≤ c.start :=
        fun c hc => ihstart c hc b (by simp)
      unfold rawClips
      split_ifs with hshort
      · refine ⟨ihsep, ihlen, ?_⟩
        intro c hc hd hhd
        simp only [List.head?_cons, Option.mem_some_iff] at hhd
        subst hhd
        linarith [hbhead c hc]
      · refine ⟨?_, ?_, ?_⟩
        · refine List.pairwise_cons.mpr ⟨?_, ihsep⟩
          intro c hc
          exact hbhead c hc
        · intro c hc
          rcases List.mem_cons.mp hc with rfl | hc
          · unfold clipLen
            dsimp only
            linarith [not_lt.mp hshort]
          · exact ihlen c hc
        · intro c hc hd hhd
          simp only [List.head?_cons, Option.mem_some_iff] at hhd
          subst hhd
          rcases List.mem_cons.mp hc with rfl | hc
          · exact le_refl _
          · linarith [hbhead c hc]

theorem setLastStop_append (e : ℚ) (l : List AnalysisClip) (h : AnalysisClip) :
    setLastStop e (l ++ [h]) = l ++ [{ h with stop := e }] := by
  induction l with
  | nil => rfl
  | cons c cs ih =>
    cases cs with
    | nil => rfl
    | cons d ds =>
      show c :: setLastStop e ((d :: ds) ++ [h]) = _
      rw [ih]
      rfl

theorem mergeSmallGo_append (minLen : ℚ) (cs : List AnalysisClip) :
    ∀ (l : List AnalysisClip) (h : AnalysisClip),
      mergeSmallGo minLen (l ++ [h]) cs = l ++ mergeSmallRec minLen h cs := by
  induction cs with
  | nil => intro l h; rfl
  | cons c cs ih =>
    intro l h
    unfold mergeSmallGo mergeSmallRec
    have hne : l ++ [h] ≠ [] := by simp
    by_cases hc : minLen ≤ clipLen c
    · rw [if_pos (Or.inl hc), if_pos hc]
      rw [show (l ++ [h]) ++ [c] = (l ++ [h]) ++ [c] from rfl, ih]
      simp
    · rw [if_neg (by simp [hc, hne]), if_neg hc]
      rw [setLastStop_append, ih]

theorem mergeSmall_eq_rec (minLen : ℚ) (h : AnalysisClip) (t : List AnalysisClip) :
    mergeSmall minLen (h :: t) = mergeSmallRec minLen h t := by
  unfold mergeSmall mergeSmallGo
  rw [if_pos (Or.inr rfl)]
  rw [show ([] : List AnalysisClip) ++ [h] = [h] from rfl] at *
  have := mergeSmallGo_append minLen t [] h
  simpa using this

theorem mergeSmallRec_spec (minLen : ℚ) (cs : List AnalysisClip) :
    ∀ h : AnalysisClip, List.Pairwise (fun x y => x.stop ≤ y.start) (h :: cs) →
      (∀ x ∈ h :: cs, 0 ≤ clipLen x) →
      List.Pairwise (fun x y => x.stop ≤ y.start) (mergeSmallRec minLen h cs) ∧
      (∀ x ∈ mergeSmallRec minLen h cs, 0 ≤ clipLen x) ∧
      (∀ x ∈ (mergeSmallRec minLen h cs).tail, minLen ≤ clipLen x) ∧
      (∀ x ∈ mergeSmallRec minLen h cs, ∃ y ∈ h :: cs, x.start = y.start) ∧
      (∃ hd t', mergeSmallRec minLen h cs = hd :: t' ∧ hd.start = h.start ∧
        clipLen h ≤ clipLen hd) := by
  induction cs with
  | nil =>
    intro h _ hlen
    refine ⟨List.pairwise_singleton _ _, ?_, by simp [mergeSmallRec], ?_, h, [], rfl, rfl, le_refl _⟩
    · intro x hx
      rcases List.mem_singleton.mp hx with rfl
      exact hlen x (by simp)
    · intro x hx
      rcases List.mem_singleton.mp hx with rfl
      exact ⟨x, by simp, rfl⟩
  | cons c cs ih =>
    intro h hsep hlen
    obtain ⟨hh, hsep'⟩ := List.pairwise_cons.mp hsep
    have hhc : h.stop ≤ c.start := hh c (by simp)
    have hc0 : 0 ≤ clipLen c := hlen c (by simp)
    have hh0 : 0 ≤ clipLen h := hlen h (by simp)
    unfold mergeSmallRec
    split_ifs with hbig
    · -- long clip: emit h, continue with c
      obtain ⟨ihsep, ihlen, ihtail, ihstart, hd, t', heq, hdstart, hdlen⟩ :=
        ih c hsep' (fun x hx => hlen x (List.mem_cons_of_mem _ hx))
      have hallmin : ∀ x ∈ mergeSmallRec minLen c cs, minLen ≤ clipLen x := by
        intro x hx
        rw [heq] at hx
        rcases List.mem_cons.mp hx with rfl | hx
        · exact le_trans hbig hdlen
        · rw [heq] at ihtail
          exact ihtail x hx
      refine ⟨?_, ?_, ?_, ?_, h, mergeSmallRec minLen c cs, rfl, rfl, le_refl _⟩
      · refine List.pairwise_cons.mpr ⟨?_, ihsep⟩
        intro x hx
        obtain ⟨y, hy, hxy⟩ := ihstart x hx
        rw [hxy]
        exact hh y hy
      · intro x hx
        rcases List.mem_cons.mp hx with rfl | hx
        · exact hh0
        · exact ihlen x hx
      · intro x hx
        exact hallmin x hx
      · intro x hx
        rcases List.mem_cons.mp hx with rfl | hx
        · exact ⟨x, by simp, rfl⟩
        · obtain ⟨y, hy, hxy⟩ := ihstart x hx
          exact ⟨y, List.mem_cons_of_mem _ hy, hxy⟩
    · -- short clip: absorb c into h
      have hstop : h.stop ≤ c.stop := le_trans hhc (by unfold clipLen at hc0; linarith)
      have hsep'' : List.Pairwise (fun x y => x.stop ≤ y.start)
          ({ h with stop := c.stop } :: cs) := by
        refine List.pairwise_cons.mpr ⟨?_, (List.pairwise_cons.mp hsep').2⟩
        intro x hx
        exact (List.pairwise_cons.mp hsep').1 x hx
      have hlen'' : ∀ x ∈ { h with stop := c.stop } :: cs, 0 ≤ clipLen x := by
        intro x hx
        rcases List.mem_cons.mp hx with rfl | hx
        · unfold clipLen at hh0 ⊢
          dsimp only at *
          linarith
        · exact hlen x (List.mem_cons_of_mem _ (List.mem_cons_of_mem _ hx))
      obtain ⟨ihsep, ihlen, ihtail, ihstart, hd, t', heq, hdstart, hdlen⟩ :=
        ih { h with stop := c.stop } hsep'' hlen''
      refine ⟨ihsep, ihlen, ihtail, ?_, hd, t', heq, hdstart, ?_⟩
      · intro x hx
        obtain ⟨y, hy, hxy⟩ := ihstart x hx
        rcases List.mem_cons.mp hy with rfl | hy
        · exact ⟨h, by simp, hxy⟩
        · exact ⟨y, List.mem_cons_of_mem _ (List.mem_cons_of_mem _ hy), hxy⟩
      · refine le_trans ?_ hdlen
        unfold clipLen
        dsimp only
        linarith

theorem minIdxGo_lt : ∀ (cs : List AnalysisClip) (i : ℕ) (bl : ℚ) (best : ℕ),
    best < i → minIdxGo cs i bl best < i + cs.length := by
  intro cs
  induction cs with
  | nil =>
    intro i bl best h
    simpa [minIdxGo] using h
  | cons c cs ih =>
    intro i bl best h
    unfold minIdxGo
    split_ifs with hlt
    · have := ih (i + 1) (clipLen c) i (Nat.lt_succ_self i)
      simp only [List.length_cons]
      omega
    · have := ih (i + 1) bl best (Nat.lt_succ_of_lt h)
      simp only [List.length_cons]
      omega

theorem smallestIdx_lt (l : List AnalysisClip) (h : l ≠ []) :
    smallestIdx l < l.length := by
  cases l with
  | nil => exact absurd rfl h
  | cons c cs =>
    have := minIdxGo_lt cs 1 (clipLen c) 0 Nat.zero_lt_one
    simp only [smallestIdx, List.length_cons]
    omega

theorem mergeBackAt_cons_succ (a : AnalysisClip) (rest : List AnalysisClip) (n : ℕ) :
    mergeBackAt (a :: rest) (n + 1) = a :: mergeBackAt rest n := by
  cases rest <;> rfl

theorem mergeBackAt_length : ∀ (l : List AnalysisClip) (j : ℕ), j + 1 < l.length →
    (mergeBackAt l j).length + 1 = l.length := by
  intro l
  induction l with
  | nil => intro j h; simp at h
  | cons a rest ih =>
    intro j h
    cases j with
    | zero =>
      cases rest with
      | nil => simp at h
      | cons b rs => simp [mergeBackAt]
    | succ j =>
      have hj : j + 1 < rest.length := by simpa using h
      have := ih j hj
      rw [mergeBackAt_cons_succ]
      simp only [List.length_cons]
      omega

theorem capStep_length (l : List AnalysisClip) (h : 2 ≤ l.length) :
    (capStep l).length + 1 = l.length := by
  unfold capStep
  dsimp only
  by_cases hi : smallestIdx l = 0
  · rw [if_pos hi]
    match l with
    | [] => simp at h
    | [a] => simp at h
    | a :: b :: rest => simp [mergeForward]
  · rw [if_neg hi]
    apply mergeBackAt_length
    have hne : l ≠ [] := by
      intro hnil
      rw [hnil] at h
      simp at h
    have := smallestIdx_lt l hne
    omega

theorem mergeBackAt_inv (m : ℚ) : ∀ (j : ℕ) (l : List AnalysisClip),
    List.Pairwise (fun x y => x.stop ≤ y.start) l →
    (∀ x ∈ l, 0 ≤ clipLen x) → (∀ x ∈ l, m ≤ clipLen x) →
    List.Pairwise (fun x y => x.stop ≤ y.start) (mergeBackAt l j) ∧
    (∀ x ∈ mergeBackAt l j, 0 ≤ clipLen x) ∧
    (∀ x ∈ mergeBackAt l j, m ≤ clipLen x) ∧
    (∀ x ∈ mergeBackAt l j, ∃ y ∈ l, x.start = y.start) := by
  intro j
  induction j with
  | zero =>
    intro l hsep hnn hmin
    match l with
    | [] => exact ⟨hsep, hnn, hmin, fun x hx => ⟨x, hx, rfl⟩⟩
    | [a] => exact ⟨hsep, hnn, hmin, fun x hx => ⟨x, hx, rfl⟩⟩
    | a :: b :: rest =>
      obtain ⟨ha, hsep'⟩ := List.pairwise_cons.mp hsep
      obtain ⟨hb, hsep''⟩ := List.pairwise_cons.mp hsep'
      have hab : a.stop ≤ b.start := ha b (by simp)
      have hb0 : 0 ≤ clipLen b := hnn b (by simp)
      have ha0 : 0 ≤ clipLen a := hnn a (by simp)
      have hstop : a.stop ≤ b.stop := le_trans hab (by unfold clipLen at hb0; linarith)
      refine ⟨?_, ?_, ?_, ?_⟩
      · refine List.pairwise_cons.mpr ⟨?_, hsep''⟩
        intro x hx
        exact hb x hx
      · intro x hx
        rcases List.mem_cons.mp hx with rfl | hx
        · unfold clipLen at ha0 ⊢
          dsimp only at *
          linarith
        · exact hnn x (by simp [hx])
      · intro x hx
        rcases List.mem_cons.mp hx with rfl | hx
        · have := hmin a (by simp)
          unfold clipLen at this ⊢
          dsimp only at *
          linarith
        · exact hmin x (by simp [hx])
      · intro x hx
        rcases List.mem_cons.mp hx with rfl | hx
        · exact ⟨a, by simp, rfl⟩
        · exact ⟨x, by simp [hx], rfl⟩
  | succ j ih =>
    intro l hsep hnn hmin
    match l with
    | [] => exact ⟨hsep, hnn, hmin, fun x hx => ⟨x, hx, rfl⟩⟩
    | a :: rest =>
      obtain ⟨ha, hsep'⟩ := List.pairwise_cons.mp hsep
      obtain ⟨g1, g2, g3, g4⟩ := ih rest hsep'
        (fun x hx => hnn x (List.mem_cons_of_mem _ hx))
        (fun x hx => hmin x (List.mem_cons_of_mem _ hx))
      rw [mergeBackAt_cons_succ]
      refine ⟨?_, ?_, ?_, ?_⟩
      · refine List.pairwise_cons.mpr ⟨?_, g1⟩
        intro x hx
        obtain ⟨y, hy, hxy⟩ := g4 x hx
        rw [hxy]
        exact ha y hy
      · intro x hx
        rcases List.mem_cons.mp hx with rfl | hx
        · exact hnn x (by simp)
        · exact g2 x hx
      · intro x hx
        rcases List.mem_cons.mp hx with rfl | hx
        · exact hmin x (by simp)
        · exact g3 x hx
      · intro x hx
        rcases List.mem_cons.mp hx with rfl | hx
        · exact ⟨x, by simp, rfl⟩
        · obtain ⟨y, hy, hxy⟩ := g4 x hx
          exact ⟨y, List.mem_cons_of_mem _ hy, hxy⟩

theorem capStep_inv (m : ℚ) (l : List AnalysisClip)
    (hsep : List.Pairwise (fun x y => x.stop ≤ y.start) l)
    (hnn : ∀ x ∈ l, 0 ≤ clipLen x)
    (htail : ∀ x ∈ l.tail, m ≤ clipLen x) :
    List.Pairwise (fun x y => x.stop ≤ y.start) (capStep l) ∧
    (∀ x ∈ capStep l, 0 ≤ clipLen x) ∧
    (∀ x ∈ (capStep l).tail, m ≤ clipLen x) := by
  unfold capStep
  dsimp only
  by_cases hi : smallestIdx l = 0
  · rw [if_pos hi]
    match l, hsep, hnn, htail with
    | [], hsep, hnn, htail => exact ⟨hsep, hnn, htail⟩
    | [a], hsep, hnn, htail => exact ⟨hsep, hnn, htail⟩
    | a :: b :: rest, hsep, hnn, htail =>
      rw [show mergeForward (a :: b :: rest) = { b with start := a.start } :: rest from rfl]
      obtain ⟨ha, hsep'⟩ := List.pairwise_cons.mp hsep
      obtain ⟨hb, hsep''⟩ := List.pairwise_cons.mp hsep'
      have hab : a.stop ≤ b.start := ha b (by simp)
      have ha0 : 0 ≤ clipLen a := hnn a (by simp)
      have hb0 : 0 ≤ clipLen b := hnn b (by simp)
      refine ⟨?_, ?_, ?_⟩
      · refine List.pairwise_cons.mpr ⟨?_, hsep''⟩
        intro x hx
        exact hb x hx
      · intro x hx
        rcases List.mem_cons.mp hx with rfl | hx
        · unfold clipLen at ha0 hb0 ⊢
          dsimp only at *
          linarith
        · exact hnn x (by simp [hx])
      · intro x hx
        exact htail x (List.mem_cons_of_mem _ hx)
  · rw [if_neg hi]
    rcases hj : smallestIdx l - 1 with _ | j
    · match l, hsep, hnn, htail with
      | [], hsep, hnn, htail => exact ⟨hsep, hnn, htail⟩
      | [a], hsep, hnn, htail => exact ⟨hsep, hnn, htail⟩
      | a :: b :: rest, hsep, hnn, htail =>
        rw [show mergeBackAt (a :: b :: rest) 0 = { a with stop := b.stop } :: rest from rfl]
        obtain ⟨ha, hsep'⟩ := List.pairwise_cons.mp hsep
        obtain ⟨hb, hsep''⟩ := List.pairwise_cons.mp hsep'
        have hab : a.stop ≤ b.start := ha b (by simp)
        have ha0 : 0 ≤ clipLen a := hnn a (by simp)
        have hb0 : 0 ≤ clipLen b := hnn b (by simp)
        have hstop : a.stop ≤ b.stop := le_trans hab (by unfold clipLen at hb0; linarith)
        refine ⟨?_, ?_, ?_⟩
        · refine List.pairwise_cons.mpr ⟨?_, hsep''⟩
          intro x hx
          exact hb x hx
        · intro x hx
          rcases List.mem_cons.mp hx with rfl | hx
          · unfold clipLen at ha0 ⊢
            dsimp only at *
            linarith
          · exact hnn x (by simp [hx])
        · intro x hx
          exact htail x (List.mem_cons_of_mem _ hx)
    · match l, hsep, hnn, htail with
      | [], hsep, hnn, htail => exact ⟨hsep, hnn, htail⟩
      | a :: rest, hsep, hnn, htail =>
        rw [mergeBackAt_cons_succ]
        obtain ⟨ha, hsep'⟩ := List.pairwise_cons.mp hsep
        obtain ⟨g1, g2, g3, g4⟩ := mergeBackAt_inv m j rest hsep'
          (fun x hx => hnn x (List.mem_cons_of_mem _ hx))
          (fun x hx => htail x hx)
        refine ⟨?_, ?_, ?_⟩
        · refine List.pairwise_cons.mpr ⟨?_, g1⟩
          intro x hx
          obtain ⟨y, hy, hxy⟩ := g4 x hx
          rw [hxy]
          exact ha y hy
        · intro x hx
          rcases List.mem_cons.mp hx with rfl | hx
          · exact hnn x (by simp)
          · exact g2 x hx
        · intro x hx
          exact g3 x hx

theorem capClipsGo_inv (m : ℚ) (maxClips : ℕ) :
    ∀ (fuel : ℕ) (l : List AnalysisClip),
      List.Pairwise (fun x y => x.stop ≤ y.start) l →
      (∀ x ∈ l, 0 ≤ clipLen x) →
      (∀ x ∈ l.tail, m ≤ clipLen x) →
      List.Pairwise (fun x y => x.stop ≤ y.start) (capClipsGo maxClips fuel l) ∧
      (∀ x ∈ capClipsGo maxClips fuel l, 0 ≤ clipLen x) ∧
      (∀ x ∈ (capClipsGo maxClips fuel l).tail, m ≤ clipLen x) := by
  intro fuel
  induction fuel with
  | zero => intro l h1 h2 h3; exact ⟨h1, h2, h3⟩
  | succ fuel ih =>
    intro l h1 h2 h3
    unfold capClipsGo
    split_ifs with hstop
    · exact ⟨h1, h2, h3⟩
    · obtain ⟨g1, g2, g3⟩ := capStep_inv m l h1 h2 h3
      exact ih _ g1 g2 g3

theorem capClipsGo_length (maxClips : ℕ) (hm : 1 ≤ maxClips) :
    ∀ (fuel : ℕ) (l : List AnalysisClip), l.length ≤ maxClips + fuel →
      (capClipsGo maxClips fuel l).length ≤ maxClips := by
  intro fuel
  induction fuel with
  | zero =>
    intro l h
    simpa [capClipsGo] using h
  | succ fuel ih =>
    intro l h
    unfold capClipsGo
    split_ifs with hstop
    · rcases hstop with hle | hlt
      · exact hle
      · omega
    · push_neg at hstop
      have hlen := capStep_length l (by omega)
      apply ih
      omega

theorem capClips_inv (m : ℚ) (maxClips : ℕ) (l : List AnalysisClip)
    (h1 : List.Pairwise (fun x y => x.stop ≤ y.start) l)
    (h2 : ∀ x ∈ l, 0 ≤ clipLen x)
    (h3 : ∀ x ∈ l.tail, m ≤ clipLen x) :
    (∀ x ∈ (capClips maxClips l).tail, m ≤ clipLen x) :=
  (capClipsGo_inv m maxClips l.length l h1 h2 h3).2.2

theorem capClips_length (maxClips : ℕ) (hm : 1 ≤ maxClips) (l : List AnalysisClip) :
    (capClips maxClips l).length ≤ maxClips :=
  capClipsGo_length maxClips hm l.length l (by omega)

theorem setLastOutro_len_map (l : List AnalysisClip) :
    (setLastOutro l).map clipLen = l.map clipLen := by
  induction l with
  | nil => rfl
  | cons c cs ih =>
    cases cs with
    | nil => rfl
    | cons d ds =>
      show clipLen c :: (setLastOutro (d :: ds)).map clipLen = _
      rw [ih]
      rfl

theorem relabelEnds_len_map (l : List AnalysisClip) :
    (relabelEnds l).map clipLen = l.map clipLen := by
  match l with
  | [] => rfl
  | [c] => rfl
  | c0 :: c1 :: cs =>
    show clipLen _ :: (setLastOutro (c1 :: cs)).map clipLen = _
    rw [setLastOutro_len_map]
    rfl

theorem relabelEnds_length (l : List AnalysisClip) :
    (relabelEnds l).length = l.length := by
  have := congrArg List.length (relabelEnds_len_map l)
  simpa using this

theorem setLastOutro_min (m : ℚ) (l : List AnalysisClip)
    (h : ∀ x ∈ l, m ≤ clipLen x) : ∀ x ∈ setLastOutro l, m ≤ clipLen x := by
  induction l with
  | nil => simp [setLastOutro]
  | cons c cs ih =>
    cases cs with
    | nil =>
      intro x hx
      rcases List.mem_singleton.mp hx with rfl
      have := h c (by simp)
      unfold clipLen at this ⊢
      dsimp only at *
      linarith
    | cons d ds =>
      intro x hx
      rcases List.mem_cons.mp hx with rfl | hx
      · exact h x (by simp)
      · exact ih (fun y hy => h y (List.mem_cons_of_mem _ hy)) x hx

theorem relabelEnds_tail_min (m : ℚ) (l : List AnalysisClip)
    (h : ∀ x ∈ l.tail, m ≤ clipLen x) :
    ∀ x ∈ (relabelEnds l).tail, m ≤ clipLen x := by
  match l with
  | [] => simp [relabelEnds]
  | [c] => simp [relabelEnds]
  | c0 :: c1 :: cs =>
    intro x hx
    exact setLastOutro_min m (c1 :: cs) (fun y hy => h y hy) x hx

theorem fallbackClips_min (g : ℕ → String) (d : ℚ) (hd : 6 < d) :
    ∀ c ∈ fallbackClips g d, 6/5 < clipLen c := by
  intro c hc
  have h5 : (6:ℚ)/5 < d/5 := by linarith
  unfold fallbackClips at hc
  dsimp only at hc
  simp only [List.mem_cons, List.not_mem_nil, or_false] at hc
  rcases hc with rfl | rfl | rfl | rfl | rfl <;>
    (unfold clipLen; dsimp only; ring_nf; ring_nf at h5; linarith)

theorem tailMinOkB_iff (q : ℚ) (l : List AnalysisClip) :
    tailMinOkB q l = true ↔ ∀ x ∈ l.tail, q ≤ clipLen x := by
  simp [tailMinOkB, List.all_eq_true]

/-- C1 (amended): for every duration, cut list, minClipSeconds and every
`maxClips ≥ 1`, `buildClipsFromCuts` returns at most `maxClips` clips
*unless* the 5-segment fallback template engages, in which case it returns
exactly 5 clips (which exceeds `maxClips` whenever `maxClips < 5`); and every
returned clip except possibly the first has length at least
`min(0.5, minClipSeconds)`. -/
theorem buildClipsFromCuts_bounds (g : ℕ → String) (d : ℚ) (cuts : List ℚ)
    (minClip : ℚ) (maxClips : ℕ) (hm : 1 ≤ maxClips) :
    ((buildClipsFromCuts g d cuts minClip maxClips).length ≤ maxClips ∨
      (buildClipsFromCuts g d cuts minClip maxClips).length = 5) ∧
    tailMinOkB (min (1/2) minClip) (buildClipsFromCuts g d cuts minClip maxClips)
      = true := by
  unfold buildClipsFromCuts
  dsimp only
  have hsorted := sortTimes_sorted (0 :: cuts.filter (fun t => 3/10 < t ∧ t < d - 3/10) ++ [d])
  generalize sortTimes (0 :: cuts.filter (fun t => 3/10 < t ∧ t < d - 3/10) ++ [d]) = ts
    at hsorted ⊢
  obtain ⟨hrsep, hrlen, _⟩ := rawClips_spec g ts hsorted 0
  have hmerged :
      List.Pairwise (fun x y => x.stop ≤ y.start)
        (mergeSmall (max (1/2) minClip) (rawClips g 0 ts)) ∧
      (∀ x ∈ mergeSmall (max (1/2) minClip) (rawClips g 0 ts), 0 ≤ clipLen x) ∧
      (∀ x ∈ (mergeSmall (max (1/2) minClip) (rawClips g 0 ts)).tail,
        max (1/2) minClip ≤ clipLen x) := by
    cases hraw : rawClips g 0 ts with
    | nil => simp [mergeSmall, mergeSmallGo]
    | cons h t =>
      rw [mergeSmall_eq_rec]
      rw [hraw] at hrsep hrlen
      obtain ⟨s1, s2, s3, _, _⟩ := mergeSmallRec_spec (max (1/2) minClip) t h hrsep
        (fun x hx => le_trans (by norm_num) (hrlen x hx))
      exact ⟨s1, s2, s3⟩
  obtain ⟨hm1, hm2, hm3⟩ := hmerged
  have hcaptail := capClips_inv (max (1/2) minClip) maxClips _ hm1 hm2 hm3
  have hcaplen := capClips_length maxClips hm
    (mergeSmall (max (1/2) minClip) (rawClips g 0 ts))
  split_ifs with hfb
  · refine ⟨Or.inr rfl, ?_⟩
    rw [tailMinOkB_iff]
    intro x hx
    have hfbmin := fallbackClips_min g d hfb.2 x (List.mem_of_mem_tail hx)
    have hminle : min (1/2 : ℚ) minClip ≤ 1/2 := min_le_left _ _
    linarith
  · refine ⟨Or.inl ?_, ?_⟩
    · rw [relabelEnds_length]
      exact hcaplen
    · rw [tailMinOkB_iff]
      intro x hx
      have hx' := relabelEnds_tail_min (max (1/2) minClip) _ hcaptail x hx
      have : min (1/2 : ℚ) minClip ≤ max (1/2) minClip :=
        le_trans (min_le_left _ _) (le_max_left _ _)
      linarith

/-- C1 witness: the bounds applied at duration 30, cuts {10, 20},
minClipSeconds 2 and maxClips 12. -/
theorem buildClipsFromCuts_bounds_witness :
    (1:ℕ) ≤ 12 ∧
    (((buildClipsFromCuts seqIds 30 [10, 20] 2 12).length ≤ 12 ∨
      (buildClipsFromCuts seqIds 30 [10, 20] 2 12).length = 5) ∧
    tailMinOkB (min (1/2) 2) (buildClipsFromCuts seqIds 30 [10, 20] 2 12) = true) :=
  ⟨by norm_num, buildClipsFromCuts_bounds seqIds 30 [10, 20] 2 12 (by norm_num)⟩

/-- C1 counterexample: with duration 10, no cuts, minClipSeconds 2 and
maxClips 1, the fallback template engages and `buildClipsFromCuts` returns
5 clips — more than `maxClips`, refuting the claim's unconditional cap (the
claim explicitly demands the cap also when the fallback engages). -/
theorem buildClipsFromCuts_fallback_exceeds_cap :
    (buildClipsFromCuts seqIds 10 [] 2 1).length = 5 ∧ ¬ ((5:ℕ) ≤ 1) := by
  constructor
  · norm_num [buildClipsFromCuts, sortTimes, insertSorted, rawClips, mergeSmall,
      mergeSmallGo, capClips, capClipsGo, relabelEnds, setLastOutro, fallbackClips,
      clipLen, setLastStop, capStep, smallestIdx, minIdxGo, mergeForward, mergeBackAt]
  · norm_num

end ClipGenius
